import Mathlib

/-!
Shallow embedding of the batch email-summarization pipeline of `app.py`
(`EmailSummarizerAgent` and its persistence helper), together with proofs of
the specification's testable properties.

Python strings are modelled as `List Char`; the Python regular-expression
patterns used by `extract_individual_summaries` are concrete enough (literal
text, `\s+`, `\s*`, a lazy group terminated by a lookahead) that their
semantics on arbitrary inputs is implemented directly by the scanning
functions below.  All definitions are structurally recursive so that they
evaluate inside the kernel.
-/

/-- Python's `\s` class and `str.strip` whitespace, restricted to ASCII
(space, tab, newline, carriage return, vertical tab, form feed). -/
def pyIsSpace (c : Char) : Bool :=
  c = ' ' || c = '\t' || c = '\n' || c = '\r' || c = '\x0b' || c = '\x0c'

/-- Case-insensitive character comparison, as used by `re.IGNORECASE`
(ASCII case folding via `Char.toLower`). -/
def ciEq (a b : Char) : Bool := a.toLower = b.toLower

/-- The decimal digit characters, as produced by Python's `str(n)`. -/
def digitChar : Nat → Char
  | 0 => '0' | 1 => '1' | 2 => '2' | 3 => '3' | 4 => '4'
  | 5 => '5' | 6 => '6' | 7 => '7' | 8 => '8' | _ => '9'

/-- Numeric value of a decimal digit character (10 on non-digits). -/
def digitVal : Char → Nat
  | '0' => 0 | '1' => 1 | '2' => 2 | '3' => 3 | '4' => 4
  | '5' => 5 | '6' => 6 | '7' => 7 | '8' => 8 | '9' => 9 | _ => 10

/-- Fuel-driven decimal printer (most significant digit first). -/
def natDigitsAux : Nat → Nat → List Char
  | 0, _ => []
  | fuel + 1, n =>
    if n < 10 then [digitChar n]
    else natDigitsAux fuel (n / 10) ++ [digitChar (n % 10)]

/-- The decimal representation of `n`, modelling Python's `str(n)`.
`n + 1` units of fuel always suffice since `n / 10 < n` for `n ≥ 10`. -/
def natDigits (n : Nat) : List Char := natDigitsAux (n + 1) n

/-- `stripCi pat s`: if `pat` is a case-insensitive prefix of `s`, return the
remainder of `s` after it; otherwise `none`.  This is literal-text matching
under `re.IGNORECASE`. -/
def stripCi : List Char → List Char → Option (List Char)
  | [], s => some s
  | _ :: _, [] => none
  | p :: ps, c :: s => if ciEq p c then stripCi ps s else none

/-- Matching of `hd` + `\s+` + `tl` at the start of `s`, returning the
remainder.  The `\s+` is matched greedily; since in every use `tl` starts
with a digit (never whitespace), the regex engine's backtracking can never
produce a different result, so the greedy run is faithful. -/
def matchHeadWsTail (hd tl : List Char) (s : List Char) : Option (List Char) :=
  match stripCi hd s with
  | none => none
  | some r =>
    match r with
    | [] => none
    | c :: r2 =>
      if pyIsSpace c then stripCi tl (r2.dropWhile pyIsSpace) else none

/-- The leading literal of the first extraction pattern
`\*\*Email\s+{n}:\*\*` of `extract_individual_summaries`. -/
def marker1Head : List Char := ['*', '*', 'e', 'm', 'a', 'i', 'l']

/-- Matching of the pattern `\*\*Email\s+{n}:\*\*` at the start of `s`
(case-insensitively), returning the remainder. -/
def matchMarker1 (n : Nat) (s : List Char) : Option (List Char) :=
  matchHeadWsTail marker1Head (natDigits n ++ [':', '*', '*']) s

/-- Matching of the second pattern `Email\s+{n}:` at the start of `s`. -/
def matchMarker2 (n : Nat) (s : List Char) : Option (List Char) :=
  matchHeadWsTail ['e', 'm', 'a', 'i', 'l'] (natDigits n ++ [':']) s

/-- `re.search`: scan left to right for the first position where the matcher
succeeds, returning the remainder after the matched text.  (For both marker
patterns, the full regex matches at a position iff the marker matches there,
because the trailing `\s*(.*?)(?=...|$)` can always complete.) -/
def findMatch (m : List Char → Option (List Char)) : List Char → Option (List Char)
  | [] => m []
  | c :: s =>
    match m (c :: s) with
    | some r => some r
    | none => findMatch m s

/-- The text before the first position at which the matcher succeeds
(`none` when it succeeds nowhere).  This is the lazy group `(.*?)` expanding
until the lookahead's first alternative matches. -/
def captureUntil (m : List Char → Option (List Char)) : List Char → Option (List Char)
  | [] => match m [] with | some _ => some [] | none => none
  | c :: s =>
    match m (c :: s) with
    | some _ => some []
    | none =>
      match captureUntil m s with
      | some cap => some (c :: cap)
      | none => none

/-- The lazy group `(.*?)(?=marker|$)`: capture up to the first marker match,
or — when the marker occurs nowhere — up to `$`, which (without
`re.MULTILINE`) matches at the end of the text or just before a final
newline. -/
def lazyCapture (m : List Char → Option (List Char)) (s : List Char) : List Char :=
  match captureUntil m s with
  | some cap => cap
  | none => if s.getLast? = some '\n' then s.dropLast else s

/-- Python `str.strip()`: remove leading and trailing whitespace. -/
def pyStrip (s : List Char) : List Char :=
  ((s.dropWhile pyIsSpace).reverse.dropWhile pyIsSpace).reverse

/-- `re.sub(r'\*\*', '', s)`: delete non-overlapping `**` pairs, left to
right. -/
def removeStars : List Char → List Char
  | '*' :: '*' :: s => removeStars s
  | c :: s => c :: removeStars s
  | [] => []

/-- Helper for `re.sub(r'\s+', ' ', s)`: the flag records whether the scan
is inside a whitespace run that has already emitted its single space. -/
def collapseWsAux : Bool → List Char → List Char
  | _, [] => []
  | inRun, c :: s =>
    if pyIsSpace c then
      if inRun then collapseWsAux true s else ' ' :: collapseWsAux true s
    else c :: collapseWsAux false s

/-- `re.sub(r'\s+', ' ', s)`: collapse each maximal whitespace run to one
space. -/
def collapseWs (s : List Char) : List Char := collapseWsAux false s

/-- The cleanup applied to a matched group in `extract_individual_summaries`:
`strip()`, then `re.sub(r'\*\*','')`, then `re.sub(r'\s+',' ')`, then
truncation to 400 characters. -/
def cleanSummary (s : List Char) : List Char :=
  (collapseWs (removeStars (pyStrip s))).take 400

/-- Python `str.split('\n')` (keeps empty pieces). -/
def splitLines : List Char → List (List Char)
  | [] => [[]]
  | '\n' :: s => [] :: splitLines s
  | c :: s =>
    match splitLines s with
    | l :: ls => (c :: l) :: ls
    | [] => [[c]]

/-- Python's `pat in s` substring test. -/
def containsSub (pat : List Char) (s : List Char) : Bool :=
  match s with
  | [] => pat.isEmpty
  | _ :: s' => pat.isPrefixOf s || containsSub pat s'

/-- Fuel-driven Python `str.replace(pat, rep)` (leftmost, non-overlapping).
`s.length` units of fuel suffice because every step consumes at least one
character of `s` (`pat` is nonempty in every use). -/
def replaceAllAux (pat rep : List Char) : Nat → List Char → List Char
  | _, [] => []
  | 0, s => s
  | fuel + 1, c :: s =>
    if pat.isPrefixOf (c :: s) && !pat.isEmpty then
      rep ++ replaceAllAux pat rep fuel ((c :: s).drop pat.length)
    else c :: replaceAllAux pat rep fuel s

/-- Python `str.replace(pat, rep)`. -/
def replaceAll (pat rep s : List Char) : List Char :=
  replaceAllAux pat rep s.length s

/-- The lowercase token `f"email {n}:"` searched for by the line-oriented
fallback. -/
def lineTokenA (n : Nat) : List Char :=
  ['e', 'm', 'a', 'i', 'l', ' '] ++ natDigits n ++ [':']

/-- The lowercase token `f"**email {n}:**"`. -/
def lineTokenB (n : Nat) : List Char :=
  ['*', '*', 'e', 'm', 'a', 'i', 'l', ' '] ++ natDigits n ++ [':', '*', '*']

/-- The membership test of the fallback:
`f"email {n}:" in line_lower or f"**email {n}:**" in line_lower`. -/
def lineMatches (n : Nat) (line : List Char) : Bool :=
  containsSub (lineTokenA n) (line.map Char.toLower) ||
    containsSub (lineTokenB n) (line.map Char.toLower)

/-- The case-sensitive token `f"Email {n}:"` used by the fallback's
`str.replace` cleanup. -/
def repTokenA (n : Nat) : List Char :=
  ['E', 'm', 'a', 'i', 'l', ' '] ++ natDigits n ++ [':']

/-- The case-sensitive token `f"**Email {n}:**"`. -/
def repTokenB (n : Nat) : List Char :=
  ['*', '*', 'E', 'm', 'a', 'i', 'l', ' '] ++ natDigits n ++ [':', '*', '*']

/-- Cleanup of a fallback line:
`line.replace(f"Email {n}:","").replace(f"**Email {n}:**","").replace("**","").strip()`. -/
def lineClean (n : Nat) (line : List Char) : List Char :=
  pyStrip (replaceAll ['*', '*'] []
    (replaceAll (repTokenB n) [] (replaceAll (repTokenA n) [] line)))

/-- The line-oriented fallback scan of `extract_individual_summaries`: use
the first line containing the position token whose cleaned remainder is
nonempty (an empty remainder does not stop the scan, because the `break`
sits under `if summary:`). -/
def lineScan (n : Nat) : List (List Char) → Option (List Char)
  | [] => none
  | line :: rest =>
    if lineMatches n line then
      let cl := lineClean n line
      if cl.isEmpty then lineScan n rest else some (cl.take 400)
    else lineScan n rest

/-- The two regex extraction strategies for position `n`, tried in order
(the second is only reached when the first pattern matches nowhere). -/
def extractByPatterns (n : Nat) (t : List Char) : Option (List Char) :=
  match findMatch (matchMarker1 n) t with
  | some rest =>
    some (cleanSummary (lazyCapture (matchMarker1 (n + 1)) (rest.dropWhile pyIsSpace)))
  | none =>
    match findMatch (matchMarker2 n) t with
    | some rest =>
      some (cleanSummary (lazyCapture (matchMarker2 (n + 1)) (rest.dropWhile pyIsSpace)))
    | none => none

/-- The defined per-position parse-failure fallback string. -/
def parseFallback : List Char := "Summary not available".toList

/-- The summary assigned to absolute position `n` given the raw response
text `t`: regex strategies, then the line-oriented fallback, then the
defined fallback string. -/
def extractPos (n : Nat) (t : List Char) : List Char :=
  match extractByPatterns n t with
  | some s => s
  | none =>
    match lineScan n (splitLines t) with
    | some s => s
    | none => parseFallback

/-- One fetched email, as assembled by `fetch_emails_last_24h` (all keys are
always present in the dicts the pipeline builds). -/
structure EmailData where
  sender : List Char
  recipient : List Char
  subject : List Char
  date : List Char
  body : List Char
deriving DecidableEq, Repr

/-- `extract_individual_summaries(summary_text, batch_emails, start_index)`:
for each local index `i`, assign position `start_index + i + 1` its extracted
summary.  (The Python function reads only `len(batch_emails)`.) -/
def extractIndividualSummaries (t : List Char) (batch : List EmailData) (s : Nat) :
    List (Nat × List Char) :=
  (List.range batch.length).map (fun i => (s + i + 1, extractPos (s + i + 1) t))

/-- The line block rendered for one email in `_summarize_batch`'s
`emails_text` loop (`email_num = start_index + i` with `i` the 1-based local
index; body excerpt truncated to 150 characters). -/
def emailEntry (num : Nat) (e : EmailData) : List Char :=
  "Email ".toList ++ natDigits num ++ ":\n".toList ++
  "From: ".toList ++ e.sender ++ ['\n'] ++
  "To: ".toList ++ e.recipient ++ ['\n'] ++
  "Subject: ".toList ++ e.subject ++ ['\n'] ++
  "Date: ".toList ++ e.date ++ ['\n'] ++
  "Content: ".toList ++ e.body.take 150 ++ "...\n\n".toList

/-- `for i, email in enumerate(batch_emails, 1): ...` with
`email_num = start_index + i`. -/
def emailsTextAux (s : Nat) : Nat → List EmailData → List Char
  | _, [] => []
  | i, e :: rest => emailEntry (s + i) e ++ emailsTextAux s (i + 1) rest

/-- The `emails_text` block of `_summarize_batch`. -/
def emailsText (batch : List EmailData) (s : Nat) : List Char :=
  emailsTextAux s 1 batch

/-- The literal marker format the prompt instructs the model to emit:
`**Email {n}:**`. -/
def markerText (n : Nat) : List Char :=
  ['*', '*', 'E', 'm', 'a', 'i', 'l', ' '] ++ natDigits n ++ [':', '*', '*']

/-- The f-string prompt assembled by `_summarize_batch` (a pure function of
the batch and the start index; the triple-quoted literal's indentation is
preserved). -/
def buildPrompt (batch : List EmailData) (s : Nat) : List Char :=
  "\n        Please provide individual one-paragraph summaries for EACH email. Format your response exactly like this:\n\n        ".toList ++
  markerText (s + 1) ++ " [One paragraph summary of this email]\n        ".toList ++
  markerText (s + 2) ++ " [One paragraph summary of this email]\n        ...and so on for each email.\n\n        Make each summary concise but informative, focusing on the main purpose and key points of each email.\n        Keep each summary to 2-3 sentences maximum.\n\n        Emails to summarize (".toList ++
  natDigits batch.length ++ " emails in this batch):\n        ".toList ++
  emailsText batch s ++ "\n        ".toList

/-- The batch-level failure fallback of `_summarize_batch`. -/
def batchFailureFallback : List Char := "Summary unavailable (API error)".toList

/-- `_summarize_batch(batch_emails, start_index)`.  The remote generation
endpoint is abstracted as `respond`, a function from the rendered prompt to
`some` response text (a successful request with a well-formed envelope) or
`none` (a request exception, non-success status, or malformed envelope — all
caught by the `except` arms).  On failure every position of the batch gets
the batch-failure fallback. -/
def summarizeBatch (respond : List Char → Option (List Char))
    (batch : List EmailData) (s : Nat) : List (Nat × List Char) :=
  if batch.isEmpty then []
  else
    match respond (buildPrompt batch s) with
    | some txt => extractIndividualSummaries txt batch s
    | none => (List.range batch.length).map (fun i => (s + i + 1, batchFailureFallback))

/-- Fuel-driven Python `range(start, stop, step)` over naturals.
`stop` units of fuel suffice for `step ≥ 1` (each iteration advances `start`
by at least one). -/
def pyRangeAux : Nat → Nat → Nat → Nat → List Nat
  | 0, _, _, _ => []
  | fuel + 1, start, stop, step =>
    if start < stop then start :: pyRangeAux fuel (start + step) stop step else []

/-- Python `range(0, stop, step)`. -/
def pyRange (stop step : Nat) : List Nat := pyRangeAux stop 0 stop step

/-- The batch size constant of `summarize_emails_in_batches`
(`batch_size = 10`). -/
def theBatchSize : Nat := 10

/-- `summarize_emails_in_batches(emails_data)`, with the batch size as an
explicit parameter (the source fixes it to `theBatchSize`): slice the input
into `emails_data[k : k + batch_size]` chunks for
`k in range(0, len(emails_data), batch_size)`, summarize each chunk, and
merge the per-batch dicts (`all_summaries.update`) — modelled as list
concatenation, sound because batch position ranges are disjoint. -/
def summarizeEmailsInBatches (respond : List Char → Option (List Char))
    (emails : List EmailData) (batchSize : Nat) : List (Nat × List Char) :=
  if emails.isEmpty then []
  else
    ((pyRange emails.length batchSize).map
      (fun k => summarizeBatch respond ((emails.drop k).take batchSize) k)).flatten

/-- The batching loop viewed as a pure function (the spec's Batcher):
the list of (start offset, contiguous slice) descriptors produced by
`range(0, len(l), b)` with slicing `l[k : k + b]`. -/
def batches (l : List α) (b : Nat) : List (Nat × List α) :=
  (pyRange l.length b).map (fun k => (k, (l.drop k).take b))

/-- The run-record fields computed by `store_email_data_for_dashboard`:
`total_emails = len(emails_data)`, `processed_emails = len(all_summaries)`,
`success_rate = processed / total * 100 if total > 0 else 0`.  The Python
float arithmetic is modelled over `ℚ`, exact here because `n / n * 100`
is computed exactly in binary floating point as well. -/
def runRecord (emails : List EmailData) (summaries : List (Nat × List Char)) :
    Nat × Nat × ℚ :=
  let total := emails.length
  let processed := summaries.length
  (total, processed,
    if 0 < total then (processed : ℚ) / (total : ℚ) * 100 else 0)

/-- A MIME message part: content type, content disposition (as the string
the code builds from the header), decoded payload (`none` models both a
missing payload and a `get_payload` that raises), and subparts.  A message
`is_multipart()` iff its payload is a list of parts. -/
inductive MimeMsg : Type where
  | part (contentType disposition : List Char) (payload : Option (List Char))
      (subparts : List MimeMsg) : MimeMsg

/-- Content type accessor. -/
def MimeMsg.contentType : MimeMsg → List Char
  | .part ct _ _ _ => ct

/-- Content disposition accessor. -/
def MimeMsg.disposition : MimeMsg → List Char
  | .part _ d _ _ => d

/-- Payload accessor. -/
def MimeMsg.payload : MimeMsg → Option (List Char)
  | .part _ _ p _ => p

/-- Subpart accessor. -/
def MimeMsg.subparts : MimeMsg → List MimeMsg
  | .part _ _ _ subs => subs

/-- `msg.is_multipart()`. -/
def MimeMsg.isMultipart (m : MimeMsg) : Bool := !m.subparts.isEmpty

mutual
/-- `msg.walk()`: the message itself, then every subpart recursively, in
order. -/
def MimeMsg.walk : MimeMsg → List MimeMsg
  | .part ct d p subs => .part ct d p subs :: walkList subs

/-- Concatenated walks of a list of parts. -/
def walkList : List MimeMsg → List MimeMsg
  | [] => []
  | m :: ms => m.walk ++ walkList ms
end

/-- The `"text/plain"` content type. -/
def plainCT : List Char := "text/plain".toList

/-- The loop body of `extract_email_body` over `msg.walk()`: `body` is the
mutable accumulator; a plain-text non-attachment part with a truthy payload
assigns `body` and breaks iff the decoded text is non-whitespace
(`if body.strip(): break`), otherwise the scan continues with the
assignment kept. -/
def bodyLoop : List Char → List MimeMsg → List Char
  | body, [] => body
  | body, p :: rest =>
    if p.contentType = plainCT && !containsSub "attachment".toList p.disposition then
      match p.payload with
      | some pl =>
        if pl.isEmpty then bodyLoop body rest
        else if (pyStrip pl).isEmpty then bodyLoop pl rest
        else pl
      | none => bodyLoop body rest
    else bodyLoop body rest

/-- `extract_email_body(msg)`: multipart messages scan their walk for a
plain-text non-attachment part; non-multipart messages return their own
payload when the content type is `text/plain`, else the empty string.
Byte decoding (`.decode('utf-8', errors='ignore')`) is modelled as the
already-decoded payload text. -/
def extractEmailBody (m : MimeMsg) : List Char :=
  if m.isMultipart then bodyLoop [] m.walk
  else if m.contentType = plainCT then
    match m.payload with
    | some pl => pl
    | none => []
  else []

/-- One fragment returned by `email.header.decode_header`: either a `str`
fragment, or a bytes fragment carrying whether a charset was specified,
whether decoding with that charset raises (an unknown codec — invalid bytes
never raise because `errors='ignore'`), and the text it decodes to with
invalid-byte tolerance. -/
inductive HdrPart : Type where
  | txt (s : List Char) : HdrPart
  | byt (encSpecified : Bool) (decodeFails : Bool) (decoded : List Char) : HdrPart
deriving DecidableEq

/-- Whether decoding this fragment raises. -/
def HdrPart.fails : HdrPart → Bool
  | .txt _ => false
  | .byt enc bad _ => enc && bad

/-- The text this fragment contributes when nothing raises. -/
def HdrPart.text : HdrPart → List Char
  | .txt s => s
  | .byt _ _ d => d

/-- The input to `decode_email_header`: Python truthiness of the header
value, its `str()` rendering, and the outcome of `decode_header` (`none`
when `decode_header` itself raises). -/
structure RawHeader where
  truthy : Bool
  raw : List Char
  parts : Option (List HdrPart)
deriving DecidableEq

/-- `decode_email_header(header)`: a falsy header yields `""`; a raise
anywhere inside the `try` (in `decode_header` or in a fragment decode)
yields `str(header)`; otherwise the decoded fragments are concatenated. -/
def decodeEmailHeader (h : RawHeader) : List Char :=
  if !h.truthy then []
  else
    match h.parts with
    | none => h.raw
    | some ps => if ps.any HdrPart.fails then h.raw else (ps.map HdrPart.text).flatten

/-- The remote-session operations `fetch_emails_last_24h` invokes, in the
order the code calls them. -/
inductive ImapAct : Type where
  | connect : ImapAct
  | login : ImapAct
  | selectInbox : ImapAct
  | search : ImapAct
  | fetchMsg (id : Nat) : ImapAct
  | close : ImapAct
  | logout : ImapAct
deriving DecidableEq, Repr

/-- The remote-world behaviour a run of `fetch_emails_last_24h` observes:
whether each session call returns or raises, the search outcome (`none` =
the call raises, `some none` = a non-`'OK'` status, `some (some ids)` = the
id list), and per id the message-processing outcome (`none` = the fetch or
the MIME/header processing raises, caught by the inner `except ... continue`;
`some none` = a non-`'OK'` fetch status, also skipped; `some (some e)` = a
processed email). -/
structure ImapEnv where
  connectOk : Bool
  loginOk : Bool
  selectOk : Bool
  searchRes : Option (Option (List Nat))
  fetchRes : Nat → Option (Option EmailData)
  closeOk : Bool
  logoutOk : Bool

/-- `fetch_emails_last_24h`, instrumented with the list of session calls it
issues (a raising call is still recorded as issued).  The `try/except`
structure of the source is mirrored exactly: any raise outside the
per-message `try` lands in the outer `except`, which returns `[]` without
further calls; a raise of `close` skips `logout`. -/
def fetchEmailsTrace (env : ImapEnv) : List EmailData × List ImapAct :=
  if !env.connectOk then ([], [ImapAct.connect])
  else if !env.loginOk then ([], [ImapAct.connect, ImapAct.login])
  else if !env.selectOk then ([], [ImapAct.connect, ImapAct.login, ImapAct.selectInbox])
  else
    let pre := [ImapAct.connect, ImapAct.login, ImapAct.selectInbox, ImapAct.search]
    match env.searchRes with
    | none => ([], pre)
    | some none =>
      if !env.closeOk then ([], pre ++ [ImapAct.close])
      else if !env.logoutOk then ([], pre ++ [ImapAct.close, ImapAct.logout])
      else ([], pre ++ [ImapAct.close, ImapAct.logout])
    | some (some ids) =>
      let datas := ids.filterMap (fun i => (env.fetchRes i).bind id)
      let acts := pre ++ ids.map ImapAct.fetchMsg
      if !env.closeOk then ([], acts ++ [ImapAct.close])
      else if !env.logoutOk then ([], acts ++ [ImapAct.close, ImapAct.logout])
      else (datas, acts ++ [ImapAct.close, ImapAct.logout])

/-!
Canonical response texts for the parser round-trip and degradation
properties.  A response in exactly the format the prompt instructs consists
of one block `**Email {n}:** {summary}` per line.
-/

/-- One response block in the instructed format: the marker for `n`, one
space, the summary text, a newline. -/
def blockOf (n : Nat) (w : List Char) : List Char :=
  markerText n ++ ' ' :: (w ++ ['\n'])

/-- A synthetic response text carrying one block per position of `ps`, with
summary texts drawn from `f`. -/
def responseText (ps : List Nat) (f : Nat → List Char) : List Char :=
  (ps.map (fun n => blockOf n (f n))).flatten

/-- Well-formedness of an injected summary text: nonempty, within the
400-character display limit, and free of whitespace and of characters that
case-fold onto `*` or whitespace — so that the cleaning pass is the
identity on it and it cannot fake or hide a marker. -/
def CleanWord (w : List Char) : Prop :=
  w ≠ [] ∧ w.length ≤ 400 ∧
    ∀ c ∈ w, pyIsSpace c = false ∧ c.toLower ≠ '*' ∧ pyIsSpace c.toLower = false

instance : DecidablePred CleanWord := fun w => by
  unfold CleanWord; infer_instance

/-- The positions `s+1 .. s+N` of a batch of `N` messages starting at
offset `s`. -/
def batchPositions (s N : Nat) : List Nat := List.range' (s + 1) N

/-- The positions of a batch with position `k` omitted. -/
def presentExcept (s N k : Nat) : List Nat :=
  List.range' (s + 1) (k - (s + 1)) ++ List.range' (k + 1) (s + N - k)

/-! Digit-character infrastructure. -/

/-- `c` is one of the ten decimal digit characters. -/
def DigitCh (c : Char) : Prop := ∃ d, d < 10 ∧ c = digitChar d

lemma digitVal_digitChar {d : Nat} (h : d < 10) : digitVal (digitChar d) = d := by
  interval_cases d <;> rfl

/-- The character facts needed about decimal digits: fixed by case folding,
not whitespace, and distinguishable (case-insensitively) from the marker
characters. -/
lemma digitCh_facts {c : Char} (h : DigitCh c) :
    c.toLower = c ∧ pyIsSpace c = false ∧
    ciEq '*' c = false ∧ ciEq c '*' = false ∧
    ciEq ':' c = false ∧ ciEq c ':' = false ∧
    ciEq 'e' c = false ∧ ciEq c 'e' = false ∧
    ciEq '\n' c = false ∧ ciEq c '\n' = false ∧
    c ≠ '*' ∧ c ≠ ':' ∧ c ≠ '\n' ∧ c ≠ 'e' ∧ c ≠ ' ' := by
  obtain ⟨d, hd, rfl⟩ := h
  interval_cases d <;> exact by decide

lemma ciEq_digit_iff {c d : Char} (hc : DigitCh c) (hd : DigitCh d) :
    ciEq c d = true ↔ c = d := by
  obtain ⟨a, ha, rfl⟩ := hc
  obtain ⟨b, hb, rfl⟩ := hd
  interval_cases a <;> interval_cases b <;> simp_all <;> decide

lemma ciEq_refl (c : Char) : ciEq c c = true := by
  simp [ciEq]

lemma natDigitsAux_congr :
    ∀ (n f1 f2 : Nat), n < f1 → n < f2 → natDigitsAux f1 n = natDigitsAux f2 n := by
  intro n
  induction n using Nat.strong_induction_on with
  | _ n ih =>
    intro f1 f2 h1 h2
    match f1, f2 with
    | g1 + 1, g2 + 1 =>
      simp only [natDigitsAux]
      by_cases h : n < 10
      · simp [h]
      · simp only [h, if_false]
        have hn : 0 < n := by omega
        have hdiv : n / 10 < n := Nat.div_lt_self hn (by omega)
        rw [ih (n / 10) hdiv g1 g2 (by omega) (by omega)]

/-- The defining recursion of `natDigits`. -/
lemma natDigits_eq (n : Nat) :
    natDigits n =
      if n < 10 then [digitChar n] else natDigits (n / 10) ++ [digitChar (n % 10)] := by
  unfold natDigits
  rw [natDigitsAux]
  by_cases h : n < 10
  · simp [h]
  · simp only [h, if_false]
    have hn : 0 < n := by omega
    have hdiv : n / 10 < n := Nat.div_lt_self hn (by omega)
    rw [natDigitsAux_congr (n / 10) n (n / 10 + 1) (by omega) (by omega)]

lemma natDigits_ne_nil (n : Nat) : natDigits n ≠ [] := by
  rw [natDigits_eq]
  by_cases h : n < 10 <;> simp [h]

lemma natDigits_all_digit (n : Nat) : ∀ c ∈ natDigits n, DigitCh c := by
  induction n using Nat.strong_induction_on with
  | _ n ih =>
    rw [natDigits_eq]
    by_cases h : n < 10
    · simp only [h, if_true, List.mem_singleton]
      rintro c rfl
      exact ⟨n, h, rfl⟩
    · simp only [h, if_false, List.mem_append, List.mem_singleton]
      rintro c (hc | rfl)
      · exact ih (n / 10) (Nat.div_lt_self (by omega) (by omega)) c hc
      · exact ⟨n % 10, Nat.mod_lt _ (by omega), rfl⟩

/-- Value of a digit string read most-significant-first. -/
def valOf (s : List Char) : Nat := s.foldl (fun a c => 10 * a + digitVal c) 0

lemma valOf_natDigits (n : Nat) : valOf (natDigits n) = n := by
  induction n using Nat.strong_induction_on with
  | _ n ih =>
    rw [natDigits_eq]
    by_cases h : n < 10
    · simp [h, valOf, List.foldl, digitVal_digitChar h]
    · simp only [h, if_false]
      have hdiv : n / 10 < n := Nat.div_lt_self (by omega) (by omega)
      have := ih (n / 10) hdiv
      simp only [valOf, List.foldl_append, List.foldl] at this ⊢
      rw [this, digitVal_digitChar (Nat.mod_lt _ (by omega))]
      omega

lemma natDigits_inj {n m : Nat} (h : natDigits n = natDigits m) : n = m := by
  rw [← valOf_natDigits n, h, valOf_natDigits]

/-- `s` consists of decimal digit characters only. -/
def AllDigit (s : List Char) : Prop := ∀ c ∈ s, DigitCh c

/-- Case-insensitive matching of one digit string + `:` against another:
succeeds exactly on the identical digit string. -/
lemma stripCi_digits_colon :
    ∀ (a b u v : List Char), AllDigit a → AllDigit b →
      stripCi (a ++ ':' :: u) (b ++ ':' :: v) =
        if a = b then stripCi u v else none := by
  intro a
  induction a with
  | nil =>
    intro b u v _ hb
    cases b with
    | nil =>
      simp only [List.nil_append, stripCi, ciEq_refl, if_true]
    | cons d b' =>
      have hd : ciEq ':' d = false := (digitCh_facts (hb d (by simp))).2.2.2.2.1
      simp [stripCi, hd]
  | cons c a' ih =>
    intro b u v ha hb
    have hc : DigitCh c := ha c (by simp)
    cases b with
    | nil =>
      have h1 : ciEq c ':' = false := (digitCh_facts hc).2.2.2.2.2.1
      simp [stripCi, h1]
    | cons d b' =>
      have hd : DigitCh d := hb d (by simp)
      by_cases hcd : c = d
      · subst hcd
        have ha' : AllDigit a' := fun x hx => ha x (by simp [hx])
        have hb' : AllDigit b' := fun x hx => hb x (by simp [hx])
        simp only [List.cons_append, stripCi, ciEq_refl c, if_true, List.append_eq]
        rw [ih b' u v ha' hb']
        by_cases hab : a' = b' <;> simp [hab]
      · have hf : ciEq c d = false := by
          cases hcif : ciEq c d with
          | false => rfl
          | true => exact absurd ((ciEq_digit_iff hc hd).mp hcif) hcd
        simp [stripCi, hf, hcd]

/-- Plain (case-sensitive) matching of one digit string + `:` against
another, as in the line-oriented fallback's substring test. -/
lemma isPrefixOf_digits_colon :
    ∀ (a b v : List Char), AllDigit a → AllDigit b →
      ((a ++ [':']).isPrefixOf (b ++ ':' :: v) = true ↔ a = b) := by
  intro a
  induction a with
  | nil =>
    intro b v _ hb
    cases b with
    | nil => simp
    | cons d b' =>
      have hd : d ≠ ':' := (digitCh_facts (hb d (by simp))).2.2.2.2.2.2.2.2.2.2.2.1
      simp [List.isPrefixOf, Ne.symm hd]
  | cons c a' ih =>
    intro b v ha hb
    have hc : DigitCh c := ha c (by simp)
    cases b with
    | nil =>
      have h1 : c ≠ ':' := (digitCh_facts hc).2.2.2.2.2.2.2.2.2.2.2.1
      simp [List.isPrefixOf, h1]
    | cons d b' =>
      have ha' : AllDigit a' := fun x hx => ha x (by simp [hx])
      have hb' : AllDigit b' := fun x hx => hb x (by simp [hx])
      by_cases hcd : c = d
      · subst hcd
        simp [List.isPrefixOf, ih b' v ha' hb']
      · simp [List.isPrefixOf, hcd]

/-- If a matcher fails at every position strictly inside `a` (viewed with
the continuation `r`), scanning `a ++ r` is scanning `r`. -/
lemma findMatch_skip {m : List Char → Option (List Char)} :
    ∀ (a r : List Char), (∀ σ, σ ≠ [] → σ <:+ a → m (σ ++ r) = none) →
      findMatch m (a ++ r) = findMatch m r := by
  intro a
  induction a with
  | nil => intro r _; rfl
  | cons c a' ih =>
    intro r h
    have h0 : m (c :: (a' ++ r)) = none := by
      have := h (c :: a') (by simp) (List.suffix_refl _)
      simpa using this
    simp only [List.cons_append, findMatch, List.append_eq, h0]
    exact ih r (fun σ hσ hs => h σ hσ (hs.trans (List.suffix_cons c a')))

/-- Analogue of `findMatch_skip` for the lazy capture scan: the skipped
region is prepended to the capture. -/
lemma captureUntil_skip {m : List Char → Option (List Char)} :
    ∀ (a r : List Char), (∀ σ, σ ≠ [] → σ <:+ a → m (σ ++ r) = none) →
      captureUntil m (a ++ r) = (captureUntil m r).map (fun cap => a ++ cap) := by
  intro a
  induction a with
  | nil =>
    intro r _
    cases h : captureUntil m r <;> simp [h]
  | cons c a' ih =>
    intro r h
    have h0 : m (c :: (a' ++ r)) = none := by
      have := h (c :: a') (by simp) (List.suffix_refl _)
      simpa using this
    simp only [List.cons_append, captureUntil, List.append_eq, h0]
    rw [ih r (fun σ hσ hs => h σ hσ (hs.trans (List.suffix_cons c a')))]
    cases captureUntil m r <;> simp

/-- Decomposition of a suffix of an append. -/
lemma suffix_append_cases {α : Type} {σ a b : List α} (h : σ <:+ a ++ b) :
    σ <:+ b ∨ ∃ σ1, σ1 ≠ [] ∧ σ1 <:+ a ∧ σ = σ1 ++ b := by
  induction a with
  | nil => exact Or.inl (by simpa using h)
  | cons c a' ih =>
    rw [List.cons_append, List.suffix_cons_iff] at h
    rcases h with rfl | h
    · exact Or.inr ⟨c :: a', by simp, List.suffix_refl _, rfl⟩
    · rcases ih h with h1 | ⟨σ1, h1, h2, h3⟩
      · exact Or.inl h1
      · exact Or.inr ⟨σ1, h1, h2.trans (List.suffix_cons c a'), h3⟩

lemma ciEq_star_eq_false {c : Char} (h : c.toLower ≠ '*') : ciEq '*' c = false := by
  have h1 : ('*').toLower = '*' := by decide
  simp only [ciEq, h1, decide_eq_false_iff_not]
  exact fun hh => h hh.symm

/-- `blockOf` written out character by character. -/
lemma blockOf_eq_cons (m : Nat) (w : List Char) :
    blockOf m w =
      '*' :: '*' :: 'E' :: 'm' :: 'a' :: 'i' :: 'l' :: ' ' ::
        (natDigits m ++ ':' :: '*' :: '*' :: ' ' :: (w ++ ['\n'])) := by
  simp [blockOf, markerText]

lemma matchMarker1_fail1 {n : Nat} {c : Char} {s : List Char} (h : ciEq '*' c = false) :
    matchMarker1 n (c :: s) = none := by
  simp [matchMarker1, matchHeadWsTail, marker1Head, stripCi, h]

lemma matchMarker1_fail2 {n : Nat} {c : Char} {s : List Char} (h : ciEq '*' c = false) :
    matchMarker1 n ('*' :: c :: s) = none := by
  have e1 : ciEq '*' '*' = true := by decide
  simp [matchMarker1, matchHeadWsTail, marker1Head, stripCi, e1, h]

lemma matchMarker1_fail3 {n : Nat} {c : Char} {s : List Char} (h : ciEq 'e' c = false) :
    matchMarker1 n ('*' :: '*' :: c :: s) = none := by
  have e1 : ciEq '*' '*' = true := by decide
  simp [matchMarker1, matchHeadWsTail, marker1Head, stripCi, e1, h]

/-- The first pattern's marker for `n`, matched at the start of a canonical
block for `m`, succeeds exactly when `n = m` and then leaves the block's
body. -/
lemma stripCi_m1head (Y : List Char) :
    stripCi marker1Head ('*' :: '*' :: 'E' :: 'm' :: 'a' :: 'i' :: 'l' :: ' ' :: Y) =
      some (' ' :: Y) := by
  have e1 : ciEq '*' '*' = true := by decide
  have e2 : ciEq 'e' 'E' = true := by decide
  have e3 : ciEq 'm' 'm' = true := by decide
  have e4 : ciEq 'a' 'a' = true := by decide
  have e5 : ciEq 'i' 'i' = true := by decide
  have e6 : ciEq 'l' 'l' = true := by decide
  simp [marker1Head, stripCi, e1, e2, e3, e4, e5, e6]

lemma dropWhile_natDigits (m : Nat) (r : List Char) :
    List.dropWhile pyIsSpace (natDigits m ++ r) = natDigits m ++ r := by
  obtain ⟨c0, cs, hds⟩ : ∃ c0 cs, natDigits m = c0 :: cs := by
    cases hh : natDigits m with
    | nil => exact absurd hh (natDigits_ne_nil m)
    | cons a b => exact ⟨a, b, rfl⟩
  have hc0 : DigitCh c0 := natDigits_all_digit m c0 (by rw [hds]; simp)
  rw [hds, List.cons_append, List.dropWhile_cons]
  simp [(digitCh_facts hc0).2.1]

/-- The first pattern's marker for `n`, matched at the start of a canonical
block for `m`, succeeds exactly when `n = m` and then leaves the block's
body. -/
lemma matchMarker1_block (n m : Nat) (w t : List Char) :
    matchMarker1 n (blockOf m w ++ t) =
      if n = m then some (' ' :: (w ++ '\n' :: t)) else none := by
  have hX : blockOf m w ++ t =
      '*' :: '*' :: 'E' :: 'm' :: 'a' :: 'i' :: 'l' :: ' ' ::
        (natDigits m ++ ':' :: '*' :: '*' :: ' ' :: (w ++ '\n' :: t)) := by
    rw [blockOf_eq_cons]
    simp [List.append_assoc]
  rw [hX, matchMarker1, matchHeadWsTail, stripCi_m1head]
  have esp : pyIsSpace ' ' = true := by decide
  simp only [esp, if_true]
  rw [dropWhile_natDigits]
  have hstrip := stripCi_digits_colon (natDigits n) (natDigits m)
    ['*', '*'] ('*' :: '*' :: ' ' :: (w ++ '\n' :: t))
    (natDigits_all_digit n) (natDigits_all_digit m)
  rw [show (natDigits n ++ [':', '*', '*'] : List Char) = natDigits n ++ ':' :: ['*', '*']
    from rfl] at *
  rw [hstrip]
  by_cases hnm : n = m
  · subst hnm
    have e1 : ciEq '*' '*' = true := by decide
    simp [stripCi, e1]
  · have hne : natDigits n ≠ natDigits m := fun hh => hnm (natDigits_inj hh)
    simp [hne, hnm]

lemma range'_append1 (s m n : Nat) :
    List.range' s m ++ List.range' (s + m) n = List.range' s (m + n) := by
  have h := List.range'_append s m n 1
  rw [one_mul] at h
  rw [Nat.add_comm m n]
  exact h

/-- Inside a canonical block (strictly after its start), the first pattern's
marker can match nowhere, whatever follows the block. -/
lemma marker1_fails_inside {n m : Nat} {w t σ : List Char} (hw : CleanWord w)
    (hσ : σ <:+ blockOf m w) (hne : σ ≠ blockOf m w) (hσne : σ ≠ []) :
    matchMarker1 n (σ ++ t) = none := by
  rw [blockOf_eq_cons] at hσ hne
  rcases List.suffix_cons_iff.mp hσ with rfl | hσ
  · exact absurd rfl hne
  rcases List.suffix_cons_iff.mp hσ with rfl | hσ
  · exact matchMarker1_fail2 (by decide)
  rcases List.suffix_cons_iff.mp hσ with rfl | hσ
  · exact matchMarker1_fail1 (by decide)
  rcases List.suffix_cons_iff.mp hσ with rfl | hσ
  · exact matchMarker1_fail1 (by decide)
  rcases List.suffix_cons_iff.mp hσ with rfl | hσ
  · exact matchMarker1_fail1 (by decide)
  rcases List.suffix_cons_iff.mp hσ with rfl | hσ
  · exact matchMarker1_fail1 (by decide)
  rcases List.suffix_cons_iff.mp hσ with rfl | hσ
  · exact matchMarker1_fail1 (by decide)
  rcases List.suffix_cons_iff.mp hσ with rfl | hσ
  · exact matchMarker1_fail1 (by decide)
  rcases suffix_append_cases hσ with hσ | ⟨σ1, hσ1ne, hσ1, rfl⟩
  · rcases List.suffix_cons_iff.mp hσ with rfl | hσ
    · exact matchMarker1_fail1 (by decide)
    rcases List.suffix_cons_iff.mp hσ with rfl | hσ
    · exact matchMarker1_fail3 (by decide)
    rcases List.suffix_cons_iff.mp hσ with rfl | hσ
    · exact matchMarker1_fail2 (by decide)
    rcases List.suffix_cons_iff.mp hσ with rfl | hσ
    · exact matchMarker1_fail1 (by decide)
    rcases suffix_append_cases hσ with hσ | ⟨σw, hσwne, hσw, rfl⟩
    · rcases List.suffix_cons_iff.mp hσ with rfl | hσ
      · exact matchMarker1_fail1 (by decide)
      · rw [List.suffix_nil.mp hσ] at hσne
        exact absurd rfl hσne
    · obtain ⟨c, σw', rfl⟩ : ∃ c σw', σw = c :: σw' := by
        cases σw with
        | nil => exact absurd rfl hσwne
        | cons a b => exact ⟨a, b, rfl⟩
      have hc : c ∈ w := hσw.subset (by simp)
      have hstar : ciEq '*' c = false :=
        ciEq_star_eq_false (hw.2.2 c hc).2.1
      simpa using matchMarker1_fail1 hstar
  · obtain ⟨c, σ1', rfl⟩ : ∃ c σ1', σ1 = c :: σ1' := by
      cases σ1 with
      | nil => exact absurd rfl hσ1ne
      | cons a b => exact ⟨a, b, rfl⟩
    have hc : DigitCh c := natDigits_all_digit m c (hσ1.subset (by simp))
    have hstar : ciEq '*' c = false := (digitCh_facts hc).2.2.1
    simpa using matchMarker1_fail1 hstar

/-- The tail of the list after the first occurrence of `n`. -/
def afterFirst (n : Nat) : List Nat → Option (List Nat)
  | [] => none
  | m :: ms => if m = n then some ms else afterFirst n ms

/-- The elements before the first occurrence of `n`. -/
def beforeFirst (n : Nat) : List Nat → Option (List Nat)
  | [] => none
  | m :: ms => if m = n then some [] else (beforeFirst n ms).map (fun l => m :: l)

lemma findMatch_of_match {m : List Char → Option (List Char)} {s r : List Char}
    (h : m s = some r) : findMatch m s = some r := by
  cases s with
  | nil => simpa [findMatch] using h
  | cons c s' => simp [findMatch, h]

lemma captureUntil_of_match {m : List Char → Option (List Char)} {s r : List Char}
    (h : m s = some r) : captureUntil m s = some [] := by
  cases s with
  | nil => simp [captureUntil, h]
  | cons c s' => simp [captureUntil, h]

lemma matchMarker1_nil (n : Nat) : matchMarker1 n [] = none := by
  simp [matchMarker1, matchHeadWsTail, marker1Head, stripCi]

lemma responseText_nil (f : Nat → List Char) : responseText [] f = [] := by
  simp [responseText]

lemma responseText_cons (m : Nat) (ms : List Nat) (f : Nat → List Char) :
    responseText (m :: ms) f = blockOf m (f m) ++ responseText ms f := by
  simp [responseText]

/-- `re.search` for the first pattern's marker over a canonical response
text: it finds exactly the block of `n`, leaving the block body and the
remaining blocks. -/
lemma findMatch_m1_resp (n : Nat) :
    ∀ (ps : List Nat) (f : Nat → List Char), (∀ q ∈ ps, CleanWord (f q)) →
      findMatch (matchMarker1 n) (responseText ps f) =
        match afterFirst n ps with
        | some rest => some (' ' :: (f n ++ '\n' :: responseText rest f))
        | none => none := by
  intro ps
  induction ps with
  | nil =>
    intro f _
    simp [responseText_nil, findMatch, matchMarker1_nil, afterFirst]
  | cons m ms ih =>
    intro f hf
    rw [responseText_cons]
    by_cases hnm : n = m
    · subst hnm
      have hm := matchMarker1_block n n (f n) (responseText ms f)
      rw [if_pos rfl] at hm
      rw [findMatch_of_match hm]
      simp [afterFirst]
    · have hskip : findMatch (matchMarker1 n) (blockOf m (f m) ++ responseText ms f) =
          findMatch (matchMarker1 n) (responseText ms f) := by
        apply findMatch_skip
        intro σ hσne hσ
        by_cases hσb : σ = blockOf m (f m)
        · subst hσb
          have hm := matchMarker1_block n m (f m) (responseText ms f)
          rwa [if_neg hnm] at hm
        · exact marker1_fails_inside (hf m (by simp)) hσ hσb hσne
      rw [hskip, ih f (fun q hq => hf q (by simp [hq]))]
      have : (m = n) = False := by simp [Ne.symm hnm]
      simp [afterFirst, this]

/-- Lazy capture for the first pattern's marker over a canonical response
text: the capture is the text of the blocks before the block of `n` (and
fails when no block for `n` exists). -/
lemma captureUntil_m1_resp (n : Nat) :
    ∀ (ps : List Nat) (f : Nat → List Char), (∀ q ∈ ps, CleanWord (f q)) →
      captureUntil (matchMarker1 n) (responseText ps f) =
        (beforeFirst n ps).map (fun pre => responseText pre f) := by
  intro ps
  induction ps with
  | nil =>
    intro f _
    simp [responseText_nil, captureUntil, matchMarker1_nil, beforeFirst]
  | cons m ms ih =>
    intro f hf
    rw [responseText_cons]
    by_cases hnm : n = m
    · subst hnm
      have hm := matchMarker1_block n n (f n) (responseText ms f)
      rw [if_pos rfl] at hm
      rw [captureUntil_of_match hm]
      simp [beforeFirst, responseText_nil]
    · have hskip : captureUntil (matchMarker1 n) (blockOf m (f m) ++ responseText ms f) =
          (captureUntil (matchMarker1 n) (responseText ms f)).map
            (fun cap => blockOf m (f m) ++ cap) := by
        apply captureUntil_skip
        intro σ hσne hσ
        by_cases hσb : σ = blockOf m (f m)
        · subst hσb
          have hm := matchMarker1_block n m (f m) (responseText ms f)
          rwa [if_neg hnm] at hm
        · exact marker1_fails_inside (hf m (by simp)) hσ hσb hσne
      rw [hskip, ih f (fun q hq => hf q (by simp [hq]))]
      have hmn : (m = n) = False := by simp [Ne.symm hnm]
      simp only [beforeFirst, hmn, if_false]
      cases beforeFirst n ms <;> simp [responseText_cons]

lemma dropWhile_eq_self_of_all {p : Char → Bool} :
    ∀ {l : List Char}, (∀ c ∈ l, p c = false) → List.dropWhile p l = l := by
  intro l h
  cases l with
  | nil => rfl
  | cons c s => rw [List.dropWhile_cons, h c (by simp)]; simp

lemma pyStrip_clean {w : List Char} (hw : ∀ c ∈ w, pyIsSpace c = false) :
    pyStrip w = w := by
  unfold pyStrip
  rw [dropWhile_eq_self_of_all hw,
    dropWhile_eq_self_of_all (fun c hc => hw c (List.mem_reverse.mp hc)),
    List.reverse_reverse]

lemma pyStrip_clean_newline {w : List Char} (hne : w ≠ [])
    (hw : ∀ c ∈ w, pyIsSpace c = false) :
    pyStrip (w ++ ['\n']) = w := by
  unfold pyStrip
  have h1 : List.dropWhile pyIsSpace (w ++ ['\n']) = w ++ ['\n'] := by
    cases w with
    | nil => exact absurd rfl hne
    | cons c s =>
      rw [List.cons_append, List.dropWhile_cons, hw c (by simp)]
      simp
  rw [h1, List.reverse_append]
  simp only [List.reverse_singleton, List.singleton_append, List.dropWhile_cons]
  have : pyIsSpace '\n' = true := by decide
  rw [this]
  simp only [if_true]
  rw [dropWhile_eq_self_of_all (fun c hc => hw c (List.mem_reverse.mp hc)),
    List.reverse_reverse]

lemma removeStars_cons_ne {c : Char} {s : List Char} (h : c ≠ '*') :
    removeStars (c :: s) = c :: removeStars s := by
  rw [removeStars.eq_def]
  split
  · next heq => injection heq with h1 _; exact absurd h1 h
  · next c' s' heq => injection heq with h1 h2; subst h1; subst h2; rfl
  · next heq => exact absurd heq.symm (by simp)

lemma removeStars_clean : ∀ {w : List Char}, (∀ c ∈ w, c ≠ '*') → removeStars w = w := by
  intro w
  induction w with
  | nil => intro _; rfl
  | cons c s ih =>
    intro h
    rw [removeStars_cons_ne (h c (by simp)), ih (fun x hx => h x (by simp [hx]))]

lemma collapseWsAux_clean :
    ∀ {w : List Char} {b : Bool}, (∀ c ∈ w, pyIsSpace c = false) → collapseWsAux b w = w := by
  intro w
  induction w with
  | nil => intro _ _; rfl
  | cons c s ih =>
    intro b h
    simp only [collapseWsAux, h c (by simp)]
    simp only [Bool.false_eq_true, if_false]
    rw [ih (fun x hx => h x (by simp [hx]))]

/-- The extraction cleanup is the identity on a clean word. -/
lemma cleanSummary_clean {w : List Char} (hw : CleanWord w) : cleanSummary w = w := by
  obtain ⟨hne, hlen, hch⟩ := hw
  have hs : ∀ c ∈ w, pyIsSpace c = false := fun c hc => (hch c hc).1
  have hst : ∀ c ∈ w, c ≠ '*' := by
    intro c hc heq
    have := (hch c hc).2.1
    rw [heq] at this
    exact this (by decide)
  unfold cleanSummary collapseWs
  rw [pyStrip_clean hs, removeStars_clean hst, collapseWsAux_clean hs,
    List.take_of_length_le hlen]

/-- The extraction cleanup strips the block's trailing newline from a clean
word. -/
lemma cleanSummary_clean_newline {w : List Char} (hw : CleanWord w) :
    cleanSummary (w ++ ['\n']) = w := by
  obtain ⟨hne, hlen, hch⟩ := hw
  have hs : ∀ c ∈ w, pyIsSpace c = false := fun c hc => (hch c hc).1
  have hst : ∀ c ∈ w, c ≠ '*' := by
    intro c hc heq
    have := (hch c hc).2.1
    rw [heq] at this
    exact this (by decide)
  unfold cleanSummary collapseWs
  rw [pyStrip_clean_newline hne hs, removeStars_clean hst, collapseWsAux_clean hs,
    List.take_of_length_le hlen]

lemma matchMarker2_nil (k : Nat) : matchMarker2 k [] = none := by
  simp [matchMarker2, matchHeadWsTail, stripCi]

lemma matchMarker2_fail_head {k : Nat} {c : Char} {s : List Char} (h : ciEq 'e' c = false) :
    matchMarker2 k (c :: s) = none := by
  simp [matchMarker2, matchHeadWsTail, stripCi, h]

lemma stripCi_natDigits_nil (k : Nat) (u : List Char) :
    stripCi (natDigits k ++ u) [] = none := by
  obtain ⟨c0, cs, hds⟩ : ∃ c0 cs, natDigits k = c0 :: cs := by
    cases hh : natDigits k with
    | nil => exact absurd hh (natDigits_ne_nil k)
    | cons a b => exact ⟨a, b, rfl⟩
  rw [hds]
  rfl

lemma stripCi_natDigits_star (k : Nat) (u r : List Char) :
    stripCi (natDigits k ++ u) ('*' :: r) = none := by
  obtain ⟨c0, cs, hds⟩ : ∃ c0 cs, natDigits k = c0 :: cs := by
    cases hh : natDigits k with
    | nil => exact absurd hh (natDigits_ne_nil k)
    | cons a b => exact ⟨a, b, rfl⟩
  have hc0 : DigitCh c0 := natDigits_all_digit k c0 (by rw [hds]; simp)
  rw [hds, List.cons_append]
  simp [stripCi, (digitCh_facts hc0).2.2.2.1]

/-- Case-insensitive scan of a letter pattern through non-whitespace text
followed by a newline: either it fails, or it stops somewhere inside the
non-whitespace region. -/
lemma stripCi_nonws_newline {p : List Char} (hp : ∀ c ∈ p, ciEq c '\n' = false) :
    ∀ {σ rest : List Char}, (∀ c ∈ σ, pyIsSpace c = false) →
      stripCi p (σ ++ '\n' :: rest) = none ∨
        ∃ σ2, σ2 <:+ σ ∧ stripCi p (σ ++ '\n' :: rest) = some (σ2 ++ '\n' :: rest) := by
  induction p with
  | nil =>
    intro σ rest _
    exact Or.inr ⟨σ, List.suffix_refl σ, rfl⟩
  | cons c p' ih =>
    intro σ rest hσ
    cases σ with
    | nil =>
      simp only [List.nil_append, stripCi, hp c (by simp)]
      exact Or.inl (by simp)
    | cons a σ' =>
      simp only [List.cons_append, stripCi, List.append_eq]
      by_cases hca : ciEq c a = true
      · rw [if_pos hca]
        rcases @ih (fun x hx => hp x (by simp [hx])) σ' rest (fun x hx => hσ x (by simp [hx]))
            with h | ⟨σ2, hs, he⟩
        · exact Or.inl h
        · exact Or.inr ⟨σ2, hs.trans (List.suffix_cons a σ'), he⟩
      · rw [if_neg hca]
        exact Or.inl rfl

/-- The second pattern's marker cannot match anywhere inside a clean summary
word followed by the block's newline, as long as what follows is the start
of another block or the end of the text. -/
lemma matchMarker2_fails_word {k : Nat} {σw rest : List Char}
    (hσw : ∀ c ∈ σw, pyIsSpace c = false)
    (hrest : rest = [] ∨ ∃ r', rest = '*' :: r') :
    matchMarker2 k (σw ++ '\n' :: rest) = none := by
  rw [matchMarker2, matchHeadWsTail]
  rcases stripCi_nonws_newline (p := ['e', 'm', 'a', 'i', 'l']) (by decide) hσw
      with h | ⟨σ2, hσ2, heq⟩
  · rw [h]
  · rw [heq]
    cases σ2 with
    | nil =>
      have hnl : pyIsSpace '\n' = true := by decide
      simp only [List.nil_append, hnl, if_true]
      rcases hrest with rfl | ⟨r', rfl⟩
      · simp [stripCi_natDigits_nil]
      · have : List.dropWhile pyIsSpace ('*' :: r') = '*' :: r' := by
          rw [List.dropWhile_cons]
          simp [show pyIsSpace '*' = false from by decide]
        rw [this, stripCi_natDigits_star]
    | cons a σ2' =>
      have ha : pyIsSpace a = false := hσw a (hσ2.subset (by simp))
      simp [ha]

lemma stripCi_m2head (Y : List Char) :
    stripCi ['e', 'm', 'a', 'i', 'l'] ('E' :: 'm' :: 'a' :: 'i' :: 'l' :: Y) = some Y := by
  have e2 : ciEq 'e' 'E' = true := by decide
  have e3 : ciEq 'm' 'm' = true := by decide
  have e4 : ciEq 'a' 'a' = true := by decide
  have e5 : ciEq 'i' 'i' = true := by decide
  have e6 : ciEq 'l' 'l' = true := by decide
  simp [stripCi, e2, e3, e4, e5, e6]

/-- The `Email` letters inside a block's marker: the second pattern's marker
matches there exactly when the numbers agree. -/
lemma matchMarker2_at2 (k m : Nat) (w t : List Char) :
    matchMarker2 k
        ('E' :: 'm' :: 'a' :: 'i' :: 'l' :: ' ' ::
          (natDigits m ++ ':' :: '*' :: '*' :: ' ' :: (w ++ '\n' :: t))) =
      if k = m then some ('*' :: '*' :: ' ' :: (w ++ '\n' :: t)) else none := by
  rw [matchMarker2, matchHeadWsTail, stripCi_m2head]
  have esp : pyIsSpace ' ' = true := by decide
  simp only [esp, if_true]
  rw [dropWhile_natDigits]
  have hstrip := stripCi_digits_colon (natDigits k) (natDigits m)
    [] ('*' :: '*' :: ' ' :: (w ++ '\n' :: t))
    (natDigits_all_digit k) (natDigits_all_digit m)
  rw [show (natDigits k ++ [':'] : List Char) = natDigits k ++ ':' :: [] from rfl]
  rw [hstrip]
  by_cases hkm : k = m
  · subst hkm
    simp [stripCi]
  · have hne : natDigits k ≠ natDigits m := fun hh => hkm (natDigits_inj hh)
    simp [hne, hkm]

/-- Everywhere inside a canonical block except at the `Email` letters of its
marker, the second pattern's marker fails to match. -/
lemma marker2_fails_inside {k m : Nat} {w t σ : List Char} (hw : CleanWord w)
    (ht : t = [] ∨ ∃ r', t = '*' :: r')
    (hσ : σ <:+ blockOf m w) (hσne : σ ≠ [])
    (h2 : σ ≠ 'E' :: 'm' :: 'a' :: 'i' :: 'l' :: ' ' ::
      (natDigits m ++ ':' :: '*' :: '*' :: ' ' :: (w ++ ['\n']))) :
    matchMarker2 k (σ ++ t) = none := by
  rw [blockOf_eq_cons] at hσ
  rcases List.suffix_cons_iff.mp hσ with rfl | hσ
  · exact matchMarker2_fail_head (by decide)
  rcases List.suffix_cons_iff.mp hσ with rfl | hσ
  · exact matchMarker2_fail_head (by decide)
  rcases List.suffix_cons_iff.mp hσ with rfl | hσ
  · exact absurd rfl h2
  rcases List.suffix_cons_iff.mp hσ with rfl | hσ
  · exact matchMarker2_fail_head (by decide)
  rcases List.suffix_cons_iff.mp hσ with rfl | hσ
  · exact matchMarker2_fail_head (by decide)
  rcases List.suffix_cons_iff.mp hσ with rfl | hσ
  · exact matchMarker2_fail_head (by decide)
  rcases List.suffix_cons_iff.mp hσ with rfl | hσ
  · exact matchMarker2_fail_head (by decide)
  rcases List.suffix_cons_iff.mp hσ with rfl | hσ
  · exact matchMarker2_fail_head (by decide)
  rcases suffix_append_cases hσ with hσ | ⟨σ1, hσ1ne, hσ1, rfl⟩
  · rcases List.suffix_cons_iff.mp hσ with rfl | hσ
    · exact matchMarker2_fail_head (by decide)
    rcases List.suffix_cons_iff.mp hσ with rfl | hσ
    · exact matchMarker2_fail_head (by decide)
    rcases List.suffix_cons_iff.mp hσ with rfl | hσ
    · exact matchMarker2_fail_head (by decide)
    rcases List.suffix_cons_iff.mp hσ with rfl | hσ
    · exact matchMarker2_fail_head (by decide)
    rcases suffix_append_cases hσ with hσ | ⟨σw, hσwne, hσw, rfl⟩
    · rcases List.suffix_cons_iff.mp hσ with rfl | hσ
      · exact matchMarker2_fail_head (by decide)
      · rw [List.suffix_nil.mp hσ] at hσne
        exact absurd rfl hσne
    · have hσwchars : ∀ c ∈ σw, pyIsSpace c = false :=
        fun c hc => (hw.2.2 c (hσw.subset hc)).1
      have : σw ++ ['\n'] ++ t = σw ++ '\n' :: t := by simp
      rw [this]
      exact matchMarker2_fails_word hσwchars ht
  · obtain ⟨c, σ1', rfl⟩ : ∃ c σ1', σ1 = c :: σ1' := by
      cases σ1 with
      | nil => exact absurd rfl hσ1ne
      | cons a b => exact ⟨a, b, rfl⟩
    have hc : DigitCh c := natDigits_all_digit m c (hσ1.subset (by simp))
    have he : ciEq 'e' c = false := (digitCh_facts hc).2.2.2.2.2.2.1
    simpa using matchMarker2_fail_head he

lemma respText_shape (ps : List Nat) (f : Nat → List Char) :
    responseText ps f = [] ∨ ∃ r', responseText ps f = '*' :: r' := by
  cases ps with
  | nil => exact Or.inl (responseText_nil f)
  | cons m ms =>
    rw [responseText_cons, blockOf_eq_cons]
    exact Or.inr ⟨_, rfl⟩

/-- When no block for `k` is present, `re.search` for the second pattern's
marker fails over the whole canonical response text. -/
lemma findMatch_m2_resp_none (k : Nat) :
    ∀ (ps : List Nat) (f : Nat → List Char), (∀ q ∈ ps, CleanWord (f q)) → k ∉ ps →
      findMatch (matchMarker2 k) (responseText ps f) = none := by
  intro ps
  induction ps with
  | nil =>
    intro f _ _
    simp [responseText_nil, findMatch, matchMarker2_nil]
  | cons m ms ih =>
    intro f hf hk
    have hkm : k ≠ m := fun hh => hk (by simp [hh])
    rw [responseText_cons]
    have hskip : findMatch (matchMarker2 k) (blockOf m (f m) ++ responseText ms f) =
        findMatch (matchMarker2 k) (responseText ms f) := by
      apply findMatch_skip
      intro σ hσne hσ
      by_cases hσ2 : σ = 'E' :: 'm' :: 'a' :: 'i' :: 'l' :: ' ' ::
          (natDigits m ++ ':' :: '*' :: '*' :: ' ' :: (f m ++ ['\n']))
      · subst hσ2
        have hnorm :
            ('E' :: 'm' :: 'a' :: 'i' :: 'l' :: ' ' ::
              (natDigits m ++ ':' :: '*' :: '*' :: ' ' :: (f m ++ ['\n']))) ++
                responseText ms f =
            'E' :: 'm' :: 'a' :: 'i' :: 'l' :: ' ' ::
              (natDigits m ++ ':' :: '*' :: '*' :: ' ' ::
                (f m ++ '\n' :: responseText ms f)) := by
          simp
        rw [hnorm, matchMarker2_at2, if_neg hkm]
      · exact marker2_fails_inside (hf m (by simp)) (respText_shape ms f) hσ hσne hσ2
    rw [hskip]
    exact ih f (fun q hq => hf q (by simp [hq])) (fun hh => hk (by simp [hh]))

/-! The line-oriented fallback finds nothing for an absent position. -/

lemma containsSub_infix_iff (p : List Char) :
    ∀ (s : List Char), containsSub p s = true ↔ p <:+: s := by
  intro s
  induction s with
  | nil =>
    simp [containsSub, List.infix_nil, List.isEmpty_iff]
  | cons c s' ih =>
    rw [containsSub]
    simp only [Bool.or_eq_true, List.isPrefixOf_iff_prefix, ih, List.infix_cons_iff]

lemma map_fix_of_all {g : Char → Char} :
    ∀ {l : List Char}, (∀ c ∈ l, g c = c) → l.map g = l := by
  intro l h
  induction l with
  | nil => rfl
  | cons c s ih => simp only [List.map_cons, h c (by simp)]; rw [ih (fun x hx => h x (by simp [hx]))]

lemma map_toLower_natDigits (m : Nat) :
    (natDigits m).map Char.toLower = natDigits m :=
  map_fix_of_all (fun c hc => (digitCh_facts (natDigits_all_digit m c hc)).1)

lemma tokenA_ne_nil (k : Nat) : lineTokenA k ≠ [] := by
  simp [lineTokenA]

/-- `f"email {k}:"` does not occur (even case-insensitively) in a canonical
block line for a different position `m`. -/
lemma tokenA_not_in_line {k m : Nat} {w : List Char} (hkm : k ≠ m) (hw : CleanWord w) :
    containsSub (lineTokenA k) ((markerText m ++ ' ' :: w).map Char.toLower) = false := by
  rw [Bool.eq_false_iff]
  intro hcon
  rw [containsSub_infix_iff] at hcon
  rcases List.infix_iff_prefix_suffix.mp hcon with ⟨t, hpre, hsuf⟩
  have hline : (markerText m ++ ' ' :: w).map Char.toLower =
      '*' :: '*' :: 'e' :: 'm' :: 'a' :: 'i' :: 'l' :: ' ' ::
        (natDigits m ++ ':' :: '*' :: '*' :: ' ' :: w.map Char.toLower) := by
    simp only [markerText, List.cons_append, List.nil_append, List.map_cons, List.map_append]
    rw [map_toLower_natDigits]
    simp
  rw [hline] at hsuf
  clear hcon hline
  have htok : lineTokenA k = 'e' :: 'm' :: 'a' :: 'i' :: 'l' :: ' ' :: (natDigits k ++ [':']) := by
    simp [lineTokenA]
  -- a prefix starting with 'e' rules out all suffix positions except the
  -- marker letters and the summary body
  have hhead : ∀ {x : List Char}, lineTokenA k <+: x → ∃ y, x = 'e' :: y := by
    intro x hx
    rw [htok] at hx
    rcases hx with ⟨z, hz⟩
    exact ⟨_, hz.symm⟩
  have hws : ' ' ∈ lineTokenA k := by simp [lineTokenA]
  -- walk the suffixes of the lowered line
  rcases List.suffix_cons_iff.mp hsuf with rfl | hsuf
  · obtain ⟨y, hy⟩ := hhead hpre; simp at hy
  rcases List.suffix_cons_iff.mp hsuf with rfl | hsuf
  · obtain ⟨y, hy⟩ := hhead hpre; simp at hy
  rcases List.suffix_cons_iff.mp hsuf with rfl | hsuf
  · -- the marker letters: forces the digits of k to match those of m
    rw [htok] at hpre
    rcases hpre with ⟨z, hz⟩
    simp only [List.cons_append, List.cons.injEq] at hz
    have hdig : (natDigits k ++ [':']) ++ z =
        natDigits m ++ ':' :: '*' :: '*' :: ' ' :: w.map Char.toLower := by
      simpa [List.append_assoc] using hz.2.2.2.2.2.2
    have : (natDigits k ++ [':']).isPrefixOf
        (natDigits m ++ ':' :: '*' :: '*' :: ' ' :: w.map Char.toLower) = true := by
      rw [List.isPrefixOf_iff_prefix]
      exact ⟨z, hdig⟩
    have := (isPrefixOf_digits_colon (natDigits k) (natDigits m) _
      (natDigits_all_digit k) (natDigits_all_digit m)).mp this
    exact hkm (natDigits_inj this)
  rcases List.suffix_cons_iff.mp hsuf with rfl | hsuf
  · obtain ⟨y, hy⟩ := hhead hpre; simp at hy
  rcases List.suffix_cons_iff.mp hsuf with rfl | hsuf
  · obtain ⟨y, hy⟩ := hhead hpre; simp at hy
  rcases List.suffix_cons_iff.mp hsuf with rfl | hsuf
  · obtain ⟨y, hy⟩ := hhead hpre; simp at hy
  rcases List.suffix_cons_iff.mp hsuf with rfl | hsuf
  · obtain ⟨y, hy⟩ := hhead hpre; simp at hy
  rcases List.suffix_cons_iff.mp hsuf with rfl | hsuf
  · obtain ⟨y, hy⟩ := hhead hpre; simp at hy
  rcases suffix_append_cases hsuf with hsuf | ⟨σ1, hσ1ne, hσ1, rfl⟩
  · rcases List.suffix_cons_iff.mp hsuf with rfl | hsuf
    · obtain ⟨y, hy⟩ := hhead hpre; simp at hy
    rcases List.suffix_cons_iff.mp hsuf with rfl | hsuf
    · obtain ⟨y, hy⟩ := hhead hpre; simp at hy
    rcases List.suffix_cons_iff.mp hsuf with rfl | hsuf
    · obtain ⟨y, hy⟩ := hhead hpre; simp at hy
    rcases List.suffix_cons_iff.mp hsuf with rfl | hsuf
    · obtain ⟨y, hy⟩ := hhead hpre; simp at hy
    · -- inside the summary body: the token's space cannot be matched
      have hsub : t ⊆ w.map Char.toLower := hsuf.subset
      have : (' ' : Char) ∈ w.map Char.toLower := hsub (hpre.subset hws)
      rcases List.mem_map.mp this with ⟨c, hc, hlc⟩
      have := (hw.2.2 c hc).2.2
      rw [hlc] at this
      exact absurd this (by simp [pyIsSpace])
  · -- inside the digits of m
    obtain ⟨c, σ1', rfl⟩ : ∃ c σ1', σ1 = c :: σ1' := by
      cases σ1 with
      | nil => exact absurd rfl hσ1ne
      | cons a b => exact ⟨a, b, rfl⟩
    have hc : DigitCh c := natDigits_all_digit m c (hσ1.subset (by simp))
    obtain ⟨y, hy⟩ := hhead hpre
    rw [List.cons_append] at hy
    injection hy with h1 _
    exact absurd h1 (digitCh_facts hc).2.2.2.2.2.2.2.2.2.2.2.2.2.1

lemma splitLines_append_nl :
    ∀ (a b : List Char), (∀ c ∈ a, c ≠ '\n') →
      splitLines (a ++ '\n' :: b) = a :: splitLines b := by
  intro a
  induction a with
  | nil => intro b _; rfl
  | cons c a' ih =>
    intro b h
    have hc : c ≠ '\n' := h c (by simp)
    rw [List.cons_append, splitLines.eq_def]
    split
    · next heq => cases heq
    · next s heq =>
      injection heq with h1 _
      exact absurd h1 hc
    · next c' s heq =>
      injection heq with h1 h2
      subst h1
      subst h2
      rw [ih b (fun x hx => h x (by simp [hx]))]

lemma block_line_no_nl {m : Nat} {w : List Char} (hw : CleanWord w) :
    ∀ c ∈ markerText m ++ ' ' :: w, c ≠ '\n' := by
  intro c hc hcn
  subst hcn
  have h1 : ('\n' : Char) ∉ natDigits m := by
    intro hh
    exact (digitCh_facts (natDigits_all_digit m _ hh)).2.2.2.2.2.2.2.2.2.2.2.2.1 rfl
  have h2 : ('\n' : Char) ∉ w := by
    intro hh
    have := (hw.2.2 _ hh).1
    exact absurd this (by decide)
  rw [markerText] at hc
  simp [h1, h2] at hc

lemma splitLines_resp :
    ∀ (ps : List Nat) (f : Nat → List Char), (∀ q ∈ ps, CleanWord (f q)) →
      splitLines (responseText ps f) =
        ps.map (fun m => markerText m ++ ' ' :: f m) ++ [[]] := by
  intro ps
  induction ps with
  | nil => intro f _; rfl
  | cons m ms ih =>
    intro f hf
    rw [responseText_cons]
    have hb : blockOf m (f m) ++ responseText ms f =
        (markerText m ++ ' ' :: f m) ++ '\n' :: responseText ms f := by
      simp [blockOf]
    rw [hb, splitLines_append_nl _ _ (block_line_no_nl (hf m (by simp))),
      ih f (fun q hq => hf q (by simp [hq]))]
    simp

lemma tokenA_infix_tokenB (k : Nat) : lineTokenA k <:+: lineTokenB k := by
  refine ⟨['*', '*'], ['*', '*'], ?_⟩
  simp [lineTokenA, lineTokenB]

lemma lineMatches_false_of_A {k : Nat} {line : List Char}
    (hA : containsSub (lineTokenA k) (line.map Char.toLower) = false) :
    lineMatches k line = false := by
  rw [lineMatches, hA, Bool.false_or]
  rw [Bool.eq_false_iff]
  intro hB
  have hinf : lineTokenB k <:+: line.map Char.toLower := (containsSub_infix_iff _ _).mp hB
  have : lineTokenA k <:+: line.map Char.toLower := (tokenA_infix_tokenB k).trans hinf
  rw [← containsSub_infix_iff] at this
  rw [hA] at this
  cases this

lemma lineMatches_empty (k : Nat) : lineMatches k [] = false := by
  have h : containsSub (lineTokenA k) (([] : List Char).map Char.toLower) = false := by
    simp [containsSub, lineTokenA]
  exact lineMatches_false_of_A h

lemma lineScan_none {k : Nat} :
    ∀ (lines : List (List Char)), (∀ line ∈ lines, lineMatches k line = false) →
      lineScan k lines = none := by
  intro lines
  induction lines with
  | nil => intro _; rfl
  | cons line rest ih =>
    intro h
    rw [lineScan, h line (by simp)]
    simp only [Bool.false_eq_true, if_false]
    exact ih (fun l hl => h l (by simp [hl]))

lemma afterFirst_eq_none {n : Nat} : ∀ {ps : List Nat}, n ∉ ps → afterFirst n ps = none := by
  intro ps
  induction ps with
  | nil => intro _; rfl
  | cons m ms ih =>
    intro h
    have hm : m ≠ n := fun hh => h (by simp [hh])
    rw [afterFirst, if_neg hm]
    exact ih (fun hh => h (by simp [hh]))

lemma afterFirst_append {n : Nat} :
    ∀ {ps1 : List Nat} (ps2 : List Nat), n ∉ ps1 →
      afterFirst n (ps1 ++ n :: ps2) = some ps2 := by
  intro ps1
  induction ps1 with
  | nil => intro ps2 _; simp [afterFirst]
  | cons m ms ih =>
    intro ps2 h
    have hm : m ≠ n := fun hh => h (by simp [hh])
    rw [List.cons_append, afterFirst, if_neg hm]
    exact ih ps2 (fun hh => h (by simp [hh]))

lemma marker1_fails_word_nl {q : Nat} {w r σ : List Char} (hw : CleanWord w)
    (hσ : σ <:+ w ++ ['\n']) (hσne : σ ≠ []) :
    matchMarker1 q (σ ++ r) = none := by
  rcases suffix_append_cases hσ with hσ | ⟨σw, hσwne, hσw, rfl⟩
  · rcases List.suffix_cons_iff.mp hσ with rfl | hσ
    · exact matchMarker1_fail1 (by decide)
    · rw [List.suffix_nil.mp hσ] at hσne
      exact absurd rfl hσne
  · obtain ⟨c, σw', rfl⟩ : ∃ c σw', σw = c :: σw' := by
      cases σw with
      | nil => exact absurd rfl hσwne
      | cons a b => exact ⟨a, b, rfl⟩
    have hc : c ∈ w := hσw.subset (by simp)
    have hstar : ciEq '*' c = false := ciEq_star_eq_false (hw.2.2 c hc).2.1
    simpa using matchMarker1_fail1 hstar

/-- THE round-trip core: a position whose block is present, and whose
successor block is either present immediately after it or absent because the
position is the last one, extracts exactly its injected summary. -/
lemma extractPos_present (ps1 ps2 : List Nat) (n : Nat) (f : Nat → List Char)
    (hclean : ∀ q ∈ ps1 ++ n :: ps2, CleanWord (f q))
    (hn1 : n ∉ ps1)
    (hshape : ps2 = [] ∨ ∃ tail, ps2 = (n + 1) :: tail) :
    extractPos n (responseText (ps1 ++ n :: ps2) f) = f n := by
  have hfn : CleanWord (f n) := hclean n (by simp)
  obtain ⟨c0, w0, hfneq⟩ : ∃ c0 w0, f n = c0 :: w0 := by
    cases hh : f n with
    | nil => exact absurd hh hfn.1
    | cons a b => exact ⟨a, b, rfl⟩
  have hfind : findMatch (matchMarker1 n) (responseText (ps1 ++ n :: ps2) f) =
      some (' ' :: (f n ++ '\n' :: responseText ps2 f)) := by
    rw [findMatch_m1_resp n _ f hclean, afterFirst_append ps2 hn1]
  have hdw : (' ' :: (f n ++ '\n' :: responseText ps2 f)).dropWhile pyIsSpace =
      f n ++ '\n' :: responseText ps2 f := by
    rw [List.dropWhile_cons]
    simp only [show pyIsSpace ' ' = true from by decide, if_true]
    rw [hfneq, List.cons_append, List.dropWhile_cons]
    have hc0 : pyIsSpace c0 = false := (hfn.2.2 c0 (by rw [hfneq]; simp)).1
    simp [hc0]
  have hassoc : f n ++ '\n' :: responseText ps2 f =
      (f n ++ ['\n']) ++ responseText ps2 f := by simp
  have hfails : ∀ σ, σ ≠ [] → σ <:+ f n ++ ['\n'] →
      matchMarker1 (n + 1) (σ ++ responseText ps2 f) = none :=
    fun σ h1 h2 => marker1_fails_word_nl hfn h2 h1
  have hsk := captureUntil_skip (f n ++ ['\n']) (responseText ps2 f) hfails
  have hclean2 : cleanSummary (lazyCapture (matchMarker1 (n + 1))
      (f n ++ '\n' :: responseText ps2 f)) = f n := by
    rcases hshape with rfl | ⟨tail, rfl⟩
    · have hnone : captureUntil (matchMarker1 (n + 1)) (responseText ([] : List Nat) f) =
          none := by
        rw [responseText_nil, captureUntil, matchMarker1_nil]
      rw [lazyCapture, hassoc, hsk, hnone]
      simp only [Option.map_none']
      rw [responseText_nil, List.append_nil, List.getLast?_concat]
      simp only [if_pos rfl]
      rw [List.dropLast_concat]
      exact cleanSummary_clean hfn
    · have hsome : captureUntil (matchMarker1 (n + 1)) (responseText ((n + 1) :: tail) f) =
          some [] := by
        rw [responseText_cons]
        apply captureUntil_of_match
        rw [matchMarker1_block, if_pos rfl]
      rw [lazyCapture, hassoc, hsk, hsome]
      simp only [Option.map_some', List.append_nil]
      exact cleanSummary_clean_newline hfn
  have hEBP : extractByPatterns n (responseText (ps1 ++ n :: ps2) f) = some (f n) := by
    rw [extractByPatterns, hfind]
    show some (cleanSummary (lazyCapture (matchMarker1 (n + 1))
      ((' ' :: (f n ++ '\n' :: responseText ps2 f)).dropWhile pyIsSpace))) = some (f n)
    rw [hdw, hclean2]
  rw [extractPos, hEBP]

/-- A position with no block present falls through both regex patterns and
the line scan, and receives the defined parse fallback. -/
lemma extractPos_absent (ps : List Nat) (n : Nat) (f : Nat → List Char)
    (hclean : ∀ q ∈ ps, CleanWord (f q)) (hn : n ∉ ps) :
    extractPos n (responseText ps f) = parseFallback := by
  have hfind1 : findMatch (matchMarker1 n) (responseText ps f) = none := by
    rw [findMatch_m1_resp n ps f hclean, afterFirst_eq_none hn]
  have hfind2 : findMatch (matchMarker2 n) (responseText ps f) = none :=
    findMatch_m2_resp_none n ps f hclean hn
  have hEBP : extractByPatterns n (responseText ps f) = none := by
    rw [extractByPatterns, hfind1, hfind2]
  have hlines : lineScan n (splitLines (responseText ps f)) = none := by
    rw [splitLines_resp ps f hclean]
    apply lineScan_none
    intro line hline
    rcases List.mem_append.mp hline with hl | hl
    · rcases List.mem_map.mp hl with ⟨m, hm, rfl⟩
      have hmn : n ≠ m := fun hh => hn (by rw [hh]; exact hm)
      exact lineMatches_false_of_A (tokenA_not_in_line hmn (hclean m hm))
    · rw [List.mem_singleton] at hl
      subst hl
      exact lineMatches_empty n
  rw [extractPos, hEBP, hlines]

lemma range'_split (a N n : Nat) (h1 : a ≤ n) (h2 : n < a + N) :
    List.range' a N = List.range' a (n - a) ++ n :: List.range' (n + 1) (a + N - 1 - n) := by
  have e1 : N = (n - a) + ((a + N - 1 - n) + 1) := by omega
  rw [e1, ← range'_append1]
  have e2 : a + (n - a) = n := by omega
  rw [e2, List.range'_succ]
  have e3 : (n - a) + ((a + N - 1 - n) + 1) = N := by omega
  simp [e3]

/-- The keys of one batch's extraction result are exactly the batch's
absolute position range, in order. -/
lemma extractIS_keys (t : List Char) (batch : List EmailData) (s : Nat) :
    (extractIndividualSummaries t batch s).map Prod.fst =
      List.range' (s + 1) batch.length := by
  rw [extractIndividualSummaries, List.map_map, List.range'_eq_map_range]
  apply List.map_congr_left
  intro i _
  simp only [Function.comp_apply]
  omega

lemma extractIS_mem {t : List Char} {batch : List EmailData} {s n : Nat} {v : List Char}
    (h1 : s + 1 ≤ n) (h2 : n ≤ s + batch.length) (hv : extractPos n t = v) :
    (n, v) ∈ extractIndividualSummaries t batch s := by
  rw [extractIndividualSummaries]
  apply List.mem_map.mpr
  refine ⟨n - s - 1, by rw [List.mem_range]; omega, ?_⟩
  have e : s + (n - s - 1) + 1 = n := by omega
  rw [e, hv]

lemma presentExcept_clean {s N k : Nat} {f : Nat → List Char}
    (hf : ∀ q, s + 1 ≤ q → q ≤ s + N → CleanWord (f q))
    (hks : s + 1 ≤ k) (hkN : k ≤ s + N) :
    ∀ q ∈ presentExcept s N k, CleanWord (f q) := by
  intro q hq
  rcases List.mem_append.mp hq with hq | hq
  · rw [List.mem_range'_1] at hq
    exact hf q hq.1 (by omega)
  · rw [List.mem_range'_1] at hq
    exact hf q (by omega) (by omega)

lemma presentExcept_not_mem {s N k : Nat} : k ∉ presentExcept s N k := by
  intro hk
  rcases List.mem_append.mp hk with hk | hk <;> rw [List.mem_range'_1] at hk <;> omega

/-- Extraction over the degraded text: every in-range position other than
`k` and `k - 1` recovers its own summary. -/
lemma extractPos_except_present {s N k n : Nat} {f : Nat → List Char}
    (hks : s + 1 ≤ k) (hkN : k ≤ s + N)
    (hn1 : s + 1 ≤ n) (hn2 : n ≤ s + N) (hnk : n ≠ k) (hnk1 : n + 1 ≠ k)
    (hf : ∀ q, s + 1 ≤ q → q ≤ s + N → CleanWord (f q)) :
    extractPos n (responseText (presentExcept s N k) f) = f n := by
  have hclean := presentExcept_clean hf hks hkN
  by_cases hlt : n < k
  · have hn1k : n + 1 < k := by omega
    have hA := range'_split (s + 1) (k - (s + 1)) n hn1 (by omega)
    have hL2 : (s + 1) + (k - (s + 1)) - 1 - n = ((s + 1) + (k - (s + 1)) - 2 - n) + 1 := by
      omega
    rw [hL2, List.range'_succ] at hA
    have hps : presentExcept s N k =
        List.range' (s + 1) (n - (s + 1)) ++ n ::
          ((n + 1) :: List.range' (n + 1 + 1) ((s + 1) + (k - (s + 1)) - 2 - n) ++
            List.range' (k + 1) (s + N - k)) := by
      rw [presentExcept, hA]
      simp [List.append_assoc]
    rw [hps]
    apply extractPos_present
    · rw [← hps]
      exact hclean
    · intro hmem
      rw [List.mem_range'_1] at hmem
      omega
    · exact Or.inr ⟨_, rfl⟩
  · have hgt : k < n := by omega
    have hB := range'_split (k + 1) (s + N - k) n (by omega) (by omega)
    have hps0 : presentExcept s N k =
        (List.range' (s + 1) (k - (s + 1)) ++ List.range' (k + 1) (n - (k + 1))) ++ n ::
          List.range' (n + 1) ((k + 1) + (s + N - k) - 1 - n) := by
      rw [presentExcept, hB]
      simp [List.append_assoc]
    rw [hps0]
    apply extractPos_present
    · rw [← hps0]
      exact hclean
    · intro hmem
      rcases List.mem_append.mp hmem with hm | hm <;> rw [List.mem_range'_1] at hm <;> omega
    · by_cases hlast : n = s + N
      · left
        have : (k + 1) + (s + N - k) - 1 - n = 0 := by omega
        rw [this]
        rfl
      · right
        have hpos : (k + 1) + (s + N - k) - 1 - n = ((k + 1) + (s + N - k) - 2 - n) + 1 := by
          omega
        rw [hpos, List.range'_succ]
        exact ⟨_, rfl⟩

/-- Extraction over the degraded text: the omitted position `k` receives the
defined parse fallback. -/
lemma extractPos_except_absent {s N k : Nat} {f : Nat → List Char}
    (hks : s + 1 ≤ k) (hkN : k ≤ s + N)
    (hf : ∀ q, s + 1 ≤ q → q ≤ s + N → CleanWord (f q)) :
    extractPos k (responseText (presentExcept s N k) f) = parseFallback :=
  extractPos_absent _ k f (presentExcept_clean hf hks hkN) presentExcept_not_mem

/-- Extraction over the complete canonical text: every in-range position
recovers its own summary. -/
lemma extractPos_range_present {s N n : Nat} {f : Nat → List Char}
    (hn1 : s + 1 ≤ n) (hn2 : n ≤ s + N)
    (hf : ∀ q, s + 1 ≤ q → q ≤ s + N → CleanWord (f q)) :
    extractPos n (responseText (List.range' (s + 1) N) f) = f n := by
  have hclean : ∀ q ∈ List.range' (s + 1) N, CleanWord (f q) := by
    intro q hq
    rw [List.mem_range'_1] at hq
    exact hf q hq.1 (by omega)
  have hA := range'_split (s + 1) N n hn1 (by omega)
  by_cases hlast : n = s + N
  · have h0 : (s + 1) + N - 1 - n = 0 := by omega
    rw [h0] at hA
    rw [hA]
    apply extractPos_present
    · rw [← hA]; exact hclean
    · intro hmem; rw [List.mem_range'_1] at hmem; omega
    · left; rfl
  · have hpos : (s + 1) + N - 1 - n = ((s + 1) + N - 2 - n) + 1 := by omega
    rw [hpos, List.range'_succ] at hA
    rw [hA]
    apply extractPos_present
    · rw [← hA]; exact hclean
    · intro hmem; rw [List.mem_range'_1] at hmem; omega
    · exact Or.inr ⟨_, rfl⟩

lemma length_eq_of_keys {l : List (Nat × List Char)} {a N : Nat}
    (h : l.map Prod.fst = List.range' a N) : l.length = N := by
  have := congrArg List.length h
  simpa using this

/-- A sample email record for concrete instances. -/
def sampleEmail : EmailData := ⟨[], [], [], [], []⟩

/-- C2 (amended): for a batch of `N` messages at start offset `s` and a
response text in the instructed format containing a block for every position
except `k` (so the line fallback finds nothing for `k` either),
`extract_individual_summaries` still returns `N` entries keyed
`s+1 .. s+N`, assigns position `k` the defined fallback
"Summary not available", and extracts its own injected summary for every
other position except possibly `k - 1` (whose lookahead searches only for
the missing marker `k` and therefore overruns). -/
theorem extract_summaries_degradation (batch : List EmailData) (s k : Nat)
    (f : Nat → List Char)
    (hks : s + 1 ≤ k) (hkN : k ≤ s + batch.length)
    (hf : ∀ n, s + 1 ≤ n → n ≤ s + batch.length → CleanWord (f n)) :
    (extractIndividualSummaries (responseText (presentExcept s batch.length k) f)
        batch s).length = batch.length ∧
    (extractIndividualSummaries (responseText (presentExcept s batch.length k) f)
        batch s).map Prod.fst = List.range' (s + 1) batch.length ∧
    (k, parseFallback) ∈
      extractIndividualSummaries (responseText (presentExcept s batch.length k) f) batch s ∧
    (∀ n, s + 1 ≤ n → n ≤ s + batch.length → n ≠ k → n + 1 ≠ k →
      (n, f n) ∈
        extractIndividualSummaries (responseText (presentExcept s batch.length k) f)
          batch s) := by
  refine ⟨length_eq_of_keys (extractIS_keys _ _ _), extractIS_keys _ _ _, ?_, ?_⟩
  · exact extractIS_mem hks hkN (extractPos_except_absent hks hkN hf)
  · intro n h1 h2 hnk hnk1
    exact extractIS_mem h1 h2 (extractPos_except_present hks hkN h1 h2 hnk hnk1 hf)

/-- C2 witness: the amended degradation theorem applied to a concrete
one-message batch with its only marker missing. -/
theorem extract_summaries_degradation_witness :
    (0 + 1 ≤ 1 ∧ 1 ≤ 0 + [sampleEmail].length ∧
      (∀ n, 0 + 1 ≤ n → n ≤ 0 + [sampleEmail].length → CleanWord "ok".toList)) ∧
    ((extractIndividualSummaries
        (responseText (presentExcept 0 [sampleEmail].length 1) (fun _ => "ok".toList))
        [sampleEmail] 0).length = [sampleEmail].length ∧
      (extractIndividualSummaries
        (responseText (presentExcept 0 [sampleEmail].length 1) (fun _ => "ok".toList))
        [sampleEmail] 0).map Prod.fst = List.range' (0 + 1) [sampleEmail].length ∧
      (1, parseFallback) ∈
        extractIndividualSummaries
          (responseText (presentExcept 0 [sampleEmail].length 1) (fun _ => "ok".toList))
          [sampleEmail] 0 ∧
      (∀ n, 0 + 1 ≤ n → n ≤ 0 + [sampleEmail].length → n ≠ 1 → n + 1 ≠ 1 →
        (n, (fun _ => "ok".toList) n) ∈
          extractIndividualSummaries
            (responseText (presentExcept 0 [sampleEmail].length 1) (fun _ => "ok".toList))
            [sampleEmail] 0)) :=
  ⟨⟨by decide, by decide, fun _ _ _ => by decide⟩,
    extract_summaries_degradation [sampleEmail] 0 1 (fun _ => "ok".toList)
      (by decide) (by decide) (fun n _ _ => show CleanWord "ok".toList by decide)⟩

/-- C2 counterexample: with three messages and marker 2 missing, position 1
does not receive its own injected summary "A" — the lookahead for the
missing marker 2 overruns and position 1's summary swallows block 3 — so
the claim's "every other position extracts correctly" is false as stated
(position 2 does get the fallback and position 3 its own text). -/
theorem extract_summaries_degradation_cx :
    extractIndividualSummaries "**Email 1:** A\n**Email 3:** C\n".toList
        [sampleEmail, sampleEmail, sampleEmail] 0 =
      [(1, "A Email 3: C".toList), (2, "Summary not available".toList),
        (3, "C".toList)] ∧
    "A Email 3: C".toList ≠ "A".toList := by
  exact ⟨rfl, by decide⟩

/-- C5 (confirmed): prompt-instructed markers and parser patterns
round-trip — for a response text containing all `N` markers in the
instructed `**Email {n}:**` format in order, extraction returns exactly `N`
entries, each position recovering its injected summary (the cleaning pass
being the identity on clean summary texts); and the instructed marker
format itself occurs literally in the prompt `_summarize_batch` builds. -/
theorem prompt_parser_roundtrip (batch : List EmailData) (s : Nat) (f : Nat → List Char)
    (hf : ∀ n, s + 1 ≤ n → n ≤ s + batch.length → CleanWord (f n)) :
    (extractIndividualSummaries (responseText (List.range' (s + 1) batch.length) f)
        batch s).length = batch.length ∧
    (extractIndividualSummaries (responseText (List.range' (s + 1) batch.length) f)
        batch s).map Prod.fst = List.range' (s + 1) batch.length ∧
    (∀ n, s + 1 ≤ n → n ≤ s + batch.length →
      (n, f n) ∈
        extractIndividualSummaries (responseText (List.range' (s + 1) batch.length) f)
          batch s) ∧
    containsSub (markerText (s + 1)) (buildPrompt batch s) = true := by
  refine ⟨length_eq_of_keys (extractIS_keys _ _ _), extractIS_keys _ _ _, ?_, ?_⟩
  · intro n h1 h2
    exact extractIS_mem h1 h2 (extractPos_range_present h1 h2 hf)
  · rw [containsSub_infix_iff]
    refine ⟨"\n        Please provide individual one-paragraph summaries for EACH email. Format your response exactly like this:\n\n        ".toList, ?_, ?_⟩
    · exact " [One paragraph summary of this email]\n        ".toList ++
        markerText (s + 2) ++ " [One paragraph summary of this email]\n        ...and so on for each email.\n\n        Make each summary concise but informative, focusing on the main purpose and key points of each email.\n        Keep each summary to 2-3 sentences maximum.\n\n        Emails to summarize (".toList ++
        natDigits batch.length ++ " emails in this batch):\n        ".toList ++
        emailsText batch s ++ "\n        ".toList
    · rw [buildPrompt]
      simp only [List.append_assoc]

/-- C5 witness: the round-trip theorem applied to a concrete one-message
batch. -/
theorem prompt_parser_roundtrip_witness :
    (∀ n, 0 + 1 ≤ n → n ≤ 0 + [sampleEmail].length → CleanWord "ok".toList) ∧
    ((extractIndividualSummaries
        (responseText (List.range' (0 + 1) [sampleEmail].length) (fun _ => "ok".toList))
        [sampleEmail] 0).length = [sampleEmail].length ∧
      (extractIndividualSummaries
        (responseText (List.range' (0 + 1) [sampleEmail].length) (fun _ => "ok".toList))
        [sampleEmail] 0).map Prod.fst = List.range' (0 + 1) [sampleEmail].length ∧
      (∀ n, 0 + 1 ≤ n → n ≤ 0 + [sampleEmail].length →
        (n, (fun _ => "ok".toList) n) ∈
          extractIndividualSummaries
            (responseText (List.range' (0 + 1) [sampleEmail].length) (fun _ => "ok".toList))
            [sampleEmail] 0) ∧
      containsSub (markerText (0 + 1)) (buildPrompt [sampleEmail] 0) = true) :=
  ⟨fun _ _ _ => by decide,
    prompt_parser_roundtrip [sampleEmail] 0 (fun _ => "ok".toList)
      (fun n _ _ => show CleanWord "ok".toList by decide)⟩

/-! Batching. -/

lemma pyRangeAux_eq_range' {b : Nat} (hb : 1 ≤ b) :
    ∀ (fuel start stop : Nat), stop ≤ start + fuel →
      pyRangeAux fuel start stop b = List.range' start ((stop - start + b - 1) / b) b := by
  intro fuel
  induction fuel with
  | zero =>
    intro start stop h
    have h0 : stop - start = 0 := by omega
    rw [pyRangeAux, h0]
    have : (0 + b - 1) / b = 0 := Nat.div_eq_of_lt (by omega)
    rw [this]
    rfl
  | succ fuel ih =>
    intro start stop h
    rw [pyRangeAux]
    by_cases hlt : start < stop
    · rw [if_pos hlt, ih (start + b) stop (by omega)]
      have harith : (stop - start + b - 1) / b = ((stop - (start + b) + b - 1) / b) + 1 := by
        by_cases hd : stop ≥ start + b
        · have e1 : stop - start + b - 1 = (stop - (start + b) + b - 1) + b := by omega
          rw [e1, Nat.add_div_right _ (by omega)]
        · have e1 : stop - (start + b) = 0 := by omega
          rw [e1]
          have e2 : (0 + b - 1) / b = 0 := Nat.div_eq_of_lt (by omega)
          rw [e2]
          exact Nat.div_eq_of_lt_le (by omega) (by omega)
      rw [harith, List.range'_succ]
    · rw [if_neg hlt]
      have h0 : stop - start = 0 := by omega
      rw [h0]
      have : (0 + b - 1) / b = 0 := Nat.div_eq_of_lt (by omega)
      rw [this]
      rfl

lemma pyRange_eq_range' {b : Nat} (hb : 1 ≤ b) (stop : Nat) :
    pyRange stop b = List.range' 0 ((stop + b - 1) / b) b := by
  rw [pyRange, pyRangeAux_eq_range' hb stop 0 stop (by omega)]
  simp

lemma le_ceil_mul (L b : Nat) (hb : 1 ≤ b) : L ≤ ((L + b - 1) / b) * b := by
  have h1 := Nat.div_add_mod (L + b - 1) b
  have h2 : (L + b - 1) % b < b := Nat.mod_lt _ (by omega)
  rw [Nat.mul_comm]
  omega

lemma flatten_slices {α : Type} (l : List α) (b : Nat) :
    ∀ (c start : Nat), l.length ≤ start + c * b →
      ((List.range' start c b).map (fun k => (l.drop k).take b)).flatten = l.drop start := by
  intro c
  induction c with
  | zero =>
    intro start h
    have h0 : l.drop start = [] := List.drop_eq_nil_of_le (by omega)
    simp [h0]
  | succ c ih =>
    intro start h
    have h' : l.length ≤ (start + b) + c * b := by
      rw [Nat.succ_mul] at h
      omega
    rw [List.range'_succ, List.map_cons, List.flatten_cons, ih (start + b) h']
    have hd : l.drop (start + b) = (l.drop start).drop b := by
      rw [List.drop_drop, Nat.add_comm]
    rw [hd, List.take_append_drop]

/-- C3 (confirmed): the batching loop `range(0, len, B)` with slicing
`l[k : k+B]` produces `ceil(N/B)` batches that are contiguous slices with
starts `0, B, 2B, ...`, whose in-order concatenation reproduces the input
(hence they are pairwise disjoint and in original order); an empty input
yields zero batches and an input shorter than one batch yields the single
partial batch `(0, l)`. -/
theorem batching_loop_correct {α : Type} (l : List α) (b : Nat) (hb : 1 ≤ b) :
    (batches l b).length = (l.length + b - 1) / b ∧
    ((batches l b).map Prod.snd).flatten = l ∧
    (∀ p ∈ batches l b, p.snd = (l.drop p.fst).take b) ∧
    (batches l b).map Prod.fst = List.range' 0 ((l.length + b - 1) / b) b ∧
    (l = [] → batches l b = []) ∧
    (l ≠ [] → l.length ≤ b → batches l b = [(0, l)]) := by
  have hpr := pyRange_eq_range' hb l.length
  refine ⟨?_, ?_, ?_, ?_, ?_, ?_⟩
  · rw [batches, hpr]
    simp
  · rw [batches, List.map_map]
    have : (Prod.snd ∘ fun k => ((k, (l.drop k).take b) : Nat × List α)) =
        fun k => (l.drop k).take b := rfl
    rw [this, hpr, flatten_slices l b _ 0 (by simpa using le_ceil_mul l.length b hb)]
    simp
  · intro p hp
    rw [batches] at hp
    rcases List.mem_map.mp hp with ⟨k, _, rfl⟩
    rfl
  · rw [batches, List.map_map]
    have : (Prod.fst ∘ fun k => ((k, (l.drop k).take b) : Nat × List α)) = fun k => k := rfl
    rw [this, hpr]
    simp
  · intro hl
    subst hl
    rw [batches, hpr]
    have h0 : (b - 1) / b = 0 := Nat.div_eq_of_lt (by omega)
    simp [h0]
  · intro hne hlen
    have hL1 : 1 ≤ l.length := by
      cases l with
      | nil => exact absurd rfl hne
      | cons a t => simp
    have hc : (l.length + b - 1) / b = 1 :=
      Nat.div_eq_of_lt_le (by omega) (by omega)
    rw [batches, hpr, hc]
    have : List.range' 0 1 b = [0] := rfl
    rw [this]
    simp [List.take_of_length_le hlen]

/-- C3 witness: the batching theorem applied to a concrete five-element
list with batch size two. -/
theorem batching_loop_correct_witness :
    (1 ≤ 2) ∧
    ((batches [10, 20, 30, 40, 50] 2).length = ([10, 20, 30, 40, 50].length + 2 - 1) / 2 ∧
      ((batches [10, 20, 30, 40, 50] 2).map Prod.snd).flatten = [10, 20, 30, 40, 50] ∧
      (∀ p ∈ batches [10, 20, 30, 40, 50] 2,
        p.snd = ([10, 20, 30, 40, 50].drop p.fst).take 2) ∧
      (batches [10, 20, 30, 40, 50] 2).map Prod.fst =
        List.range' 0 (([10, 20, 30, 40, 50].length + 2 - 1) / 2) 2 ∧
      ([10, 20, 30, 40, 50] = ([] : List Nat) → batches [10, 20, 30, 40, 50] 2 = []) ∧
      ([10, 20, 30, 40, 50] ≠ ([] : List Nat) → [10, 20, 30, 40, 50].length ≤ 2 →
        batches [10, 20, 30, 40, 50] 2 = [(0, [10, 20, 30, 40, 50])])) :=
  ⟨by decide, batching_loop_correct [10, 20, 30, 40, 50] 2 (by decide)⟩

/-! Totality of the pipeline's summary map. -/

lemma map_fst_range_keys {β : Type} (s N : Nat) (g : Nat → β) :
    ((List.range N).map (fun i => (s + i + 1, g i))).map Prod.fst =
      List.range' (s + 1) N := by
  rw [List.map_map, List.range'_eq_map_range]
  apply List.map_congr_left
  intro i _
  simp only [Function.comp_apply]
  omega

lemma summarizeBatch_keys (r : List Char → Option (List Char))
    (batch : List EmailData) (s : Nat) :
    (summarizeBatch r batch s).map Prod.fst = List.range' (s + 1) batch.length := by
  rw [summarizeBatch]
  by_cases hbe : batch.isEmpty
  · rw [if_pos hbe]
    have : batch.length = 0 := by
      rw [List.isEmpty_iff] at hbe
      simp [hbe]
    simp [this]
  · rw [if_neg hbe]
    cases r (buildPrompt batch s) with
    | some txt => exact extractIS_keys txt batch s
    | none => exact map_fst_range_keys s batch.length _

lemma summarizeBatch_values (r : List Char → Option (List Char))
    (batch : List EmailData) (s : Nat) :
    ∀ p ∈ summarizeBatch r batch s,
      p.snd = batchFailureFallback ∨ p.snd = parseFallback ∨
        ∃ t, p.snd = extractPos p.fst t := by
  intro p hp
  rw [summarizeBatch] at hp
  by_cases hbe : batch.isEmpty
  · rw [if_pos hbe] at hp
    cases hp
  · rw [if_neg hbe] at hp
    cases hr : r (buildPrompt batch s) with
    | some txt =>
      rw [hr] at hp
      rcases List.mem_map.mp hp with ⟨i, _, rfl⟩
      exact Or.inr (Or.inr ⟨txt, rfl⟩)
    | none =>
      rw [hr] at hp
      rcases List.mem_map.mp hp with ⟨i, _, rfl⟩
      exact Or.inl rfl

lemma flatten_key_ranges (L b : Nat) (hb : 1 ≤ b) :
    ∀ (c start : Nat), L ≤ start + c * b →
      ((List.range' start c b).map
        (fun k => List.range' (k + 1) (min b (L - k)))).flatten =
        List.range' (start + 1) (L - start) := by
  intro c
  induction c with
  | zero =>
    intro start h
    have h0 : L - start = 0 := by omega
    simp [h0]
  | succ c ih =>
    intro start h
    have h' : L ≤ (start + b) + c * b := by
      rw [Nat.succ_mul] at h
      omega
    rw [List.range'_succ, List.map_cons, List.flatten_cons, ih (start + b) h']
    by_cases hge : start + b ≤ L
    · have hmin : min b (L - start) = b := by omega
      rw [hmin]
      have e1 : start + b + 1 = (start + 1) + b := by omega
      rw [e1, range'_append1]
      congr 1
      omega
    · have hmin : min b (L - start) = L - start := by omega
      have h0 : L - (start + b) = 0 := by omega
      rw [hmin, h0]
      simp

/-- The keys of the full summary map are `1 .. N` in order. -/
lemma summarizeAll_keys (respond : List Char → Option (List Char))
    (emails : List EmailData) (b : Nat) (hne : emails ≠ []) (hb : 1 ≤ b) :
    (summarizeEmailsInBatches respond emails b).map Prod.fst =
      List.range' 1 emails.length := by
  rw [summarizeEmailsInBatches, if_neg (by simpa [List.isEmpty_iff] using hne)]
  rw [List.map_flatten, List.map_map]
  have hcong :
      (List.map Prod.fst ∘ fun k => summarizeBatch respond ((emails.drop k).take b) k) =
        fun k => List.range' (k + 1) (min b (emails.length - k)) := by
    funext k
    simp only [Function.comp_apply]
    rw [summarizeBatch_keys]
    congr 1
    rw [List.length_take, List.length_drop]
  rw [hcong, pyRange_eq_range' hb]
  have := flatten_key_ranges emails.length b hb ((emails.length + b - 1) / b) 0
    (by simpa using le_ceil_mul emails.length b hb)
  simpa using this

/-- C1 (confirmed): for a non-empty fetched sequence of `N` messages and
any batch size `B ≥ 1`, the map returned by `summarize_emails_in_batches`
has exactly `N` entries whose keys are the positions `1 .. N` in order, and
every value is the batch-failure fallback, the parse fallback, or a summary
the parser extracted for that position — independently of which batches'
generation calls fail (the generation endpoint is quantified as an
arbitrary `respond`). -/
theorem summary_map_total (respond : List Char → Option (List Char))
    (emails : List EmailData) (b : Nat) (hne : emails ≠ []) (hb : 1 ≤ b) :
    (summarizeEmailsInBatches respond emails b).map Prod.fst =
      List.range' 1 emails.length ∧
    (summarizeEmailsInBatches respond emails b).length = emails.length ∧
    (∀ p ∈ summarizeEmailsInBatches respond emails b,
      p.snd = batchFailureFallback ∨ p.snd = parseFallback ∨
        ∃ t, p.snd = extractPos p.fst t) := by
  have hkeys := summarizeAll_keys respond emails b hne hb
  refine ⟨hkeys, length_eq_of_keys hkeys, ?_⟩
  intro p hp
  rw [summarizeEmailsInBatches, if_neg (by simpa [List.isEmpty_iff] using hne)] at hp
  rcases List.mem_flatten.mp hp with ⟨chunk, hchunk, hpc⟩
  rcases List.mem_map.mp hchunk with ⟨k, _, rfl⟩
  exact summarizeBatch_values respond _ k p hpc

/-- C1 witness: the totality theorem applied to two concrete messages with
batch size one and a generation endpoint that always fails. -/
theorem summary_map_total_witness :
    ([sampleEmail, sampleEmail] ≠ ([] : List EmailData)) ∧ (1 ≤ 1) ∧
    ((summarizeEmailsInBatches (fun _ => none) [sampleEmail, sampleEmail] 1).map Prod.fst =
        List.range' 1 [sampleEmail, sampleEmail].length ∧
      (summarizeEmailsInBatches (fun _ => none) [sampleEmail, sampleEmail] 1).length =
        [sampleEmail, sampleEmail].length ∧
      (∀ p ∈ summarizeEmailsInBatches (fun _ => none) [sampleEmail, sampleEmail] 1,
        p.snd = batchFailureFallback ∨ p.snd = parseFallback ∨
          ∃ t, p.snd = extractPos p.fst t)) :=
  ⟨by decide, by decide,
    summary_map_total (fun _ => none) [sampleEmail, sampleEmail] 1 (by decide) (by decide)⟩

/-- C9 (confirmed): the run record stored by
`store_email_data_for_dashboard` computes `processed_emails` as the size of
the summary map; since that map is always total (one entry per fetched
message, fallbacks included), the processed count equals the total count and
the stored success rate is exactly 100 for every non-empty fetched sequence
— even when every batch's generation call fails (the statement quantifies
over every generation endpoint `respond`, including `fun _ => none`). -/
theorem stored_success_rate_saturates (respond : List Char → Option (List Char))
    (emails : List EmailData) (b : Nat) (hne : emails ≠ []) (hb : 1 ≤ b) :
    runRecord emails (summarizeEmailsInBatches respond emails b) =
      (emails.length, emails.length, 100) := by
  have hlen : (summarizeEmailsInBatches respond emails b).length = emails.length :=
    length_eq_of_keys (summarizeAll_keys respond emails b hne hb)
  have hpos : 0 < emails.length := List.length_pos.mpr hne
  rw [runRecord]
  simp only [hlen, hpos, if_pos]
  have hcast : (emails.length : ℚ) ≠ 0 := by
    exact_mod_cast Nat.pos_iff_ne_zero.mp hpos
  rw [div_self hcast, one_mul]

/-- C9 witness: the run-record theorem at a concrete one-message sequence
with the code's batch size 10 and an always-failing generation endpoint. -/
theorem stored_success_rate_saturates_witness :
    ([sampleEmail] ≠ ([] : List EmailData)) ∧ (1 ≤ theBatchSize) ∧
    runRecord [sampleEmail]
        (summarizeEmailsInBatches (fun _ => none) [sampleEmail] theBatchSize) =
      ([sampleEmail].length, [sampleEmail].length, 100) :=
  ⟨by decide, by decide,
    stored_success_rate_saturates (fun _ => none) [sampleEmail] theBatchSize
      (by decide) (by decide)⟩

/-- C4 (confirmed): when the generation request for a batch fails (modelled
by `respond` returning `none` on that batch's prompt — request exception,
bad status, or malformed envelope are all caught), `_summarize_batch`
returns, without raising, the map assigning every position of the batch the
batch-failure fallback string; that string differs from the per-position
parse fallback, keeping the two failure kinds distinguishable; and a
batch's result depends only on the response to its own prompt, so other
batches are unaffected. -/
theorem batch_failure_isolation (respond : List Char → Option (List Char))
    (batch : List EmailData) (s : Nat)
    (hfail : respond (buildPrompt batch s) = none) :
    summarizeBatch respond batch s =
      (List.range batch.length).map (fun i => (s + i + 1, batchFailureFallback)) ∧
    batchFailureFallback ≠ parseFallback ∧
    (∀ (r r' : List Char → Option (List Char)) (batch' : List EmailData) (s' : Nat),
      r (buildPrompt batch' s') = r' (buildPrompt batch' s') →
      summarizeBatch r batch' s' = summarizeBatch r' batch' s') := by
  refine ⟨?_, by decide, ?_⟩
  · rw [summarizeBatch]
    by_cases hbe : batch.isEmpty
    · rw [if_pos hbe]
      have : batch.length = 0 := by
        rw [List.isEmpty_iff] at hbe
        simp [hbe]
      simp [this]
    · rw [if_neg hbe, hfail]
  · intro r r' batch' s' hagree
    rw [summarizeBatch, summarizeBatch, hagree]

/-- C4 witness: the batch-failure theorem at a concrete one-message batch
whose generation call fails. -/
theorem batch_failure_isolation_witness :
    ((fun (_ : List Char) => (none : Option (List Char))) (buildPrompt [sampleEmail] 0)
        = none) ∧
    (summarizeBatch (fun _ => none) [sampleEmail] 0 =
        (List.range [sampleEmail].length).map
          (fun i => (0 + i + 1, batchFailureFallback)) ∧
      batchFailureFallback ≠ parseFallback ∧
      (∀ (r r' : List Char → Option (List Char)) (batch' : List EmailData) (s' : Nat),
        r (buildPrompt batch' s') = r' (buildPrompt batch' s') →
        summarizeBatch r batch' s' = summarizeBatch r' batch' s')) :=
  ⟨rfl, batch_failure_isolation (fun _ => none) [sampleEmail] 0 rfl⟩

lemma containsSub_append_right (p a b : List Char) (h : containsSub p b = true) :
    containsSub p (a ++ b) = true := by
  rw [containsSub_infix_iff] at h ⊢
  exact h.trans (List.suffix_append a b).isInfix

lemma containsSub_append_left (p a b : List Char) (h : containsSub p a = true) :
    containsSub p (a ++ b) = true := by
  rw [containsSub_infix_iff] at h ⊢
  exact h.trans (List.prefix_append a b).isInfix

/-- Each local position's `Email {num}:` header occurs in the rendered
email block. -/
lemma emailsTextAux_contains (s : Nat) :
    ∀ (batch : List EmailData) (j i : Nat), i < batch.length →
      containsSub ("Email ".toList ++ natDigits (s + j + i) ++ [':'])
        (emailsTextAux s j batch) = true := by
  intro batch
  induction batch with
  | nil =>
    intro j i hi
    simp at hi
  | cons e rest ih =>
    intro j i hi
    rw [emailsTextAux]
    cases i with
    | zero =>
      apply containsSub_append_left
      rw [containsSub_infix_iff]
      refine ⟨[], ('\n' :: ("From: ".toList ++ e.sender ++ ['\n'] ++
        "To: ".toList ++ e.recipient ++ ['\n'] ++
        "Subject: ".toList ++ e.subject ++ ['\n'] ++
        "Date: ".toList ++ e.date ++ ['\n'] ++
        "Content: ".toList ++ e.body.take 150 ++ "...\n\n".toList)), ?_⟩
      rw [emailEntry]
      have e0 : s + j + 0 = s + j := by omega
      rw [e0]
      simp [List.append_assoc]
    | succ i' =>
      apply containsSub_append_right
      have e1 : s + j + (i' + 1) = s + (j + 1) + i' := by omega
      rw [e1]
      exact ih (j + 1) i' (by simpa using hi)

/-- C8 (confirmed): prompt rendering is deterministic — `_summarize_batch`
builds the prompt from the batch contents and the start index alone (the
embedding is a pure function of exactly those two inputs; the code reads no
clock, randomness, or other state there), so two calls on the same
arguments yield character-for-character identical text — and the prompt
enumerates each message under its 1-based absolute position
`startIndex + localIndex`. -/
theorem prompt_rendering_deterministic (batch : List EmailData) (s : Nat) :
    buildPrompt batch s = buildPrompt batch s ∧
    (∀ b2 s2, batch = b2 → s = s2 → buildPrompt batch s = buildPrompt b2 s2) ∧
    (∀ i, i < batch.length →
      containsSub ("Email ".toList ++ natDigits (s + i + 1) ++ [':'])
        (buildPrompt batch s) = true) := by
  refine ⟨rfl, ?_, ?_⟩
  · intro b2 s2 hb hs
    rw [hb, hs]
  · intro i hi
    rw [buildPrompt]
    apply containsSub_append_left
    apply containsSub_append_right
    have e1 : s + i + 1 = s + 1 + i := by omega
    rw [e1]
    exact emailsTextAux_contains s batch 1 i hi

/-- C8 witness: the prompt determinism and enumeration theorem applied to a
concrete one-message batch. -/
theorem prompt_rendering_deterministic_witness :
    (0 < [sampleEmail].length) ∧
    containsSub ("Email ".toList ++ natDigits (0 + 0 + 1) ++ [':'])
      (buildPrompt [sampleEmail] 0) = true :=
  ⟨by decide,
    (prompt_rendering_deterministic [sampleEmail] 0).2.2 0 (by decide)⟩

/-! Body extraction. -/

/-- A part the walk loop may use: plain-text, not an attachment, with a
truthy (present, nonempty) payload. -/
def partQualifies (p : MimeMsg) : Bool :=
  p.contentType = plainCT && !containsSub "attachment".toList p.disposition &&
    (match p.payload with
     | some pl => !pl.isEmpty
     | none => false)

/-- A qualifying part whose decoded text is non-whitespace — the loop
breaks at the first such part. -/
def partGood (p : MimeMsg) : Bool :=
  partQualifies p && !(pyStrip (p.payload.getD [])).isEmpty

lemma bodyLoop_find :
    ∀ (l : List MimeMsg) (acc : List Char) (p : MimeMsg),
      l.find? partGood = some p → bodyLoop acc l = p.payload.getD [] := by
  intro l
  induction l with
  | nil => intro acc p h; cases h
  | cons q rest ih =>
    intro acc p h
    by_cases hq : partGood q = true
    · rw [List.find?_cons_of_pos _ hq] at h
      injection h with h
      subst h
      have h1 : (q.contentType = plainCT &&
          !containsSub "attachment".toList q.disposition) = true := by
        simp only [partGood, partQualifies, Bool.and_eq_true] at hq
        rw [Bool.and_eq_true]
        exact ⟨hq.1.1.1, hq.1.1.2⟩
      obtain ⟨pl, hpl, hple, hstr⟩ :
          ∃ pl, q.payload = some pl ∧ pl.isEmpty = false ∧ (pyStrip pl).isEmpty = false := by
        simp only [partGood, partQualifies, Bool.and_eq_true] at hq
        cases hpl : q.payload with
        | none => rw [hpl] at hq; simp at hq
        | some pl =>
          rw [hpl] at hq
          refine ⟨pl, rfl, by simpa using hq.1.2, ?_⟩
          simpa using hq.2
      rw [bodyLoop, if_pos h1, hpl]
      simp [hple, hstr]
    · rw [List.find?_cons_of_neg _ hq] at h
      rw [bodyLoop]
      by_cases h1 : (q.contentType = plainCT &&
          !containsSub "attachment".toList q.disposition) = true
      · rw [if_pos h1]
        cases hpl : q.payload with
        | none => exact ih acc p h
        | some pl =>
          by_cases hple : pl.isEmpty = true
          · simp only [hple, if_true]
            exact ih acc p h
          · rw [Bool.not_eq_true] at hple
            by_cases hstr : (pyStrip pl).isEmpty = true
            · simp only [hple, hstr, Bool.false_eq_true, if_false, if_true]
              exact ih pl p h
            · exfalso
              apply hq
              simp only [partGood, partQualifies, Bool.and_eq_true]
              refine ⟨⟨⟨?_, ?_⟩, ?_⟩, ?_⟩
              · simpa using (Bool.and_eq_true _ _).mp h1 |>.1
              · exact (Bool.and_eq_true _ _).mp h1 |>.2
              · rw [hpl]
                simpa using hple
              · rw [hpl]
                simpa using hstr
      · rw [if_neg h1]
        exact ih acc p h

lemma bodyLoop_nonplain :
    ∀ (l : List MimeMsg) (acc : List Char),
      (∀ p ∈ l, p.contentType ≠ plainCT) → bodyLoop acc l = acc := by
  intro l
  induction l with
  | nil => intro acc _; rfl
  | cons q rest ih =>
    intro acc h
    rw [bodyLoop]
    have h1 : (q.contentType = plainCT &&
        !containsSub "attachment".toList q.disposition) = false := by
      simp [h q (by simp)]
    rw [h1]
    simp only [Bool.false_eq_true, if_false]
    exact ih acc (fun p hp => h p (by simp [hp]))

/-- C6 (amended): for every multipart message whose walk contains a
plain-text non-attachment part with a nonempty payload decoding to
non-whitespace text, `extract_email_body` returns the decoded text of the
FIRST such part; and for every multipart message in which no part is marked
`text/plain`, it returns the empty string — there is no fallback to the
top-level payload (attachment parts are excluded throughout by the
`partQualifies` condition). -/
theorem extract_body_multipart (m : MimeMsg) (hm : m.isMultipart = true) :
    (∀ p, m.walk.find? partGood = some p →
      extractEmailBody m = p.payload.getD []) ∧
    ((∀ p ∈ m.walk, p.contentType ≠ plainCT) → extractEmailBody m = []) := by
  constructor
  · intro p hp
    rw [extractEmailBody, if_pos hm]
    exact bodyLoop_find m.walk [] p hp
  · intro h
    rw [extractEmailBody, if_pos hm]
    exact bodyLoop_nonplain m.walk [] h

/-- A concrete multipart message for the C6 witness: one plain-text
subpart. -/
def witnessMsg : MimeMsg :=
  .part "multipart/alternative".toList [] none
    [.part "text/plain".toList [] (some "hi".toList) []]

/-- C6 witness: the body-extraction theorem applied to a concrete multipart
message, returning the plain-text subpart's payload. -/
theorem extract_body_multipart_witness :
    witnessMsg.isMultipart = true ∧
    extractEmailBody witnessMsg =
      (MimeMsg.part "text/plain".toList [] (some "hi".toList) []).payload.getD [] :=
  ⟨rfl, (extract_body_multipart witnessMsg rfl).1 _ rfl⟩

/-- A concrete multipart message with a top-level payload and no plain-text
part. -/
def cxMsg : MimeMsg :=
  .part "multipart/mixed".toList [] (some "hello".toList)
    [.part "text/html".toList [] (some "x".toList) []]

/-- C6 counterexample: a multipart message with no part marked plain-text
and a top-level payload "hello" — the claim's fallback would return
"hello", but `extract_email_body` returns the empty string (the code has no
top-level-payload fallback in the multipart branch). -/
theorem extract_body_multipart_cx :
    cxMsg.isMultipart = true ∧ cxMsg.payload = some "hello".toList ∧
    extractEmailBody cxMsg = [] ∧ ([] : List Char) ≠ "hello".toList :=
  ⟨rfl, rfl, rfl, by decide⟩

/-- C7 (amended): if connect, login and select succeed and the search call
returns (with any status), then `fetch_emails_last_24h` issues `close`
before returning — whatever happens to the individual message fetches — and
issues `logout` as well provided `close` itself does not raise; and any
raise at connect or login (total connection/authentication failure) makes
the function return an empty sequence rather than raising.  (The original
claim's "always closes" is false: a raise between opening the session and
the fetch loop — at login, select or search — returns `[]` without closing;
see the counterexample.) -/
theorem fetch_session_close (env : ImapEnv)
    (hc : env.connectOk = true) (hl : env.loginOk = true) (hs : env.selectOk = true)
    (r : Option (List Nat)) (hr : env.searchRes = some r) :
    ImapAct.close ∈ (fetchEmailsTrace env).2 ∧
    (env.closeOk = true → ImapAct.logout ∈ (fetchEmailsTrace env).2) ∧
    (∀ env' : ImapEnv, env'.connectOk = false ∨ env'.loginOk = false →
      (fetchEmailsTrace env').1 = []) := by
  have htr : fetchEmailsTrace env =
      (let pre := [ImapAct.connect, ImapAct.login, ImapAct.selectInbox, ImapAct.search]
       match env.searchRes with
       | none => ([], pre)
       | some none =>
         if !env.closeOk then ([], pre ++ [ImapAct.close])
         else if !env.logoutOk then ([], pre ++ [ImapAct.close, ImapAct.logout])
         else ([], pre ++ [ImapAct.close, ImapAct.logout])
       | some (some ids) =>
         let datas := ids.filterMap (fun i => (env.fetchRes i).bind id)
         let acts := pre ++ ids.map ImapAct.fetchMsg
         if !env.closeOk then ([], acts ++ [ImapAct.close])
         else if !env.logoutOk then ([], acts ++ [ImapAct.close, ImapAct.logout])
         else (datas, acts ++ [ImapAct.close, ImapAct.logout])) := by
    rw [fetchEmailsTrace, hc, hl, hs]
    rfl
  refine ⟨?_, ?_, ?_⟩
  · rw [htr, hr]
    cases r with
    | none =>
      by_cases hclose : env.closeOk = true
      · by_cases hlog : env.logoutOk = true <;> simp [hclose, hlog]
      · rw [Bool.not_eq_true] at hclose
        simp [hclose]
    | some ids =>
      by_cases hclose : env.closeOk = true
      · by_cases hlog : env.logoutOk = true <;> simp [hclose, hlog]
      · rw [Bool.not_eq_true] at hclose
        simp [hclose]
  · intro hclose
    rw [htr, hr]
    cases r with
    | none =>
      by_cases hlog : env.logoutOk = true <;> simp [hclose, hlog]
    | some ids =>
      by_cases hlog : env.logoutOk = true <;> simp [hclose, hlog]
  · intro env' h
    rcases h with h | h
    · rw [fetchEmailsTrace, h]
      rfl
    · rw [fetchEmailsTrace, h]
      by_cases hc' : env'.connectOk = true
      · rw [hc']
        rfl
      · rw [Bool.not_eq_true] at hc'
        rw [hc']
        rfl

/-- A concrete environment for the C7 witness: everything succeeds, the
search returns two message ids, and both message fetches fail (caught by
the inner `except`). -/
def witnessEnv : ImapEnv :=
  ⟨true, true, true, some (some [1, 2]), fun _ => none, true, true⟩

/-- C7 witness: the session-close theorem applied to a concrete run whose
per-message fetches all fail. -/
theorem fetch_session_close_witness :
    (witnessEnv.connectOk = true ∧ witnessEnv.loginOk = true ∧
      witnessEnv.selectOk = true ∧ witnessEnv.searchRes = some (some [1, 2])) ∧
    (ImapAct.close ∈ (fetchEmailsTrace witnessEnv).2 ∧
      (witnessEnv.closeOk = true → ImapAct.logout ∈ (fetchEmailsTrace witnessEnv).2) ∧
      (∀ env' : ImapEnv, env'.connectOk = false ∨ env'.loginOk = false →
        (fetchEmailsTrace env').1 = [])) :=
  ⟨⟨rfl, rfl, rfl, rfl⟩,
    fetch_session_close witnessEnv rfl rfl rfl (some [1, 2]) rfl⟩

/-- A concrete environment for the C7 counterexample: the session opens and
authenticates, but the search call raises. -/
def cxEnv : ImapEnv := ⟨true, true, true, none, fun _ => none, true, true⟩

/-- C7 counterexample: a run that opens the session (connect, login and
select succeed) and then raises at the search call returns `[]` WITHOUT
ever invoking `close` or `logout` — the outer `except` has no `finally` —
refuting "the session is closed before the function returns" as stated. -/
theorem fetch_session_close_cx :
    cxEnv.connectOk = true ∧
    fetchEmailsTrace cxEnv =
      ([], [ImapAct.connect, ImapAct.login, ImapAct.selectInbox, ImapAct.search]) ∧
    ImapAct.close ∉ (fetchEmailsTrace cxEnv).2 ∧
    ImapAct.logout ∉ (fetchEmailsTrace cxEnv).2 := by
  refine ⟨rfl, rfl, ?_, ?_⟩ <;> decide

/-- C10 (confirmed): `decode_email_header` is total — a falsy header yields
the empty string; a truthy header whose fragments all decode (bytes decoded
with their charset or UTF-8, invalid bytes tolerated by `errors='ignore'`)
yields the concatenation of the decoded fragments; and any decoding
exception (in `decode_header` itself or an unknown charset in a fragment)
is caught and yields `str(header)` instead of raising. -/
theorem decode_header_total (h : RawHeader) :
    (h.truthy = false → decodeEmailHeader h = []) ∧
    (∀ ps, h.truthy = true → h.parts = some ps → ps.any HdrPart.fails = false →
      decodeEmailHeader h = (ps.map HdrPart.text).flatten) ∧
    (h.truthy = true → h.parts = none → decodeEmailHeader h = h.raw) ∧
    (∀ ps, h.truthy = true → h.parts = some ps → ps.any HdrPart.fails = true →
      decodeEmailHeader h = h.raw) := by
  refine ⟨?_, ?_, ?_, ?_⟩
  · intro ht
    rw [decodeEmailHeader, ht]
    rfl
  · intro ps ht hp hf
    rw [decodeEmailHeader, ht, hp]
    simp [hf]
  · intro ht hp
    rw [decodeEmailHeader, ht, hp]
    rfl
  · intro ps ht hp hf
    rw [decodeEmailHeader, ht, hp]
    simp [hf]

/-- A concrete header for the C10 witness: one `str` fragment and one bytes
fragment with a charset that decodes. -/
def witnessHeader : RawHeader :=
  ⟨true, "raw".toList, some [HdrPart.txt "a".toList, HdrPart.byt true false "b".toList]⟩

/-- C10 witness: the totality theorem applied to a concrete decodable
header, yielding the concatenated fragment texts. -/
theorem decode_header_total_witness :
    (witnessHeader.truthy = true ∧
      witnessHeader.parts = some [HdrPart.txt "a".toList, HdrPart.byt true false "b".toList] ∧
      [HdrPart.txt "a".toList, HdrPart.byt true false "b".toList].any HdrPart.fails = false) ∧
    decodeEmailHeader witnessHeader =
      ([HdrPart.txt "a".toList, HdrPart.byt true false "b".toList].map HdrPart.text).flatten :=
  ⟨⟨rfl, rfl, rfl⟩,
    (decode_header_total witnessHeader).2.1 _ rfl rfl rfl⟩
